import Mathlib

/-!
Verification development for the pygom core: the bidirectional compiler
between event lists (continuous-time Markov chain transitions) and the
aggregate ODE right-hand side of a compartmental model.

The repository sources available here are the documentation notebooks
(model-definition walkthrough, the transition-unrolling notebook with its
recorded outputs, and the sympy bug-hunt notebook).  The library modules
themselves (SimulateOde, Transition, the unroll engine) are not among the
sources, so the Stoichiometry Compiler and the Unroll Engine are modelled
from the specification and validated below against the concrete
input/output pairs recorded in the notebooks.
-/

/-- Symbolic rate/ODE expression over named identifiers: rational literals,
identifiers, unary minus, sums, differences, products, quotients and natural
powers.  This is the fragment of the expression grammar exercised by every
compiled example in the sources; transcendental functions are outside the
embedded fragment (they appear only in the separate time-symbol study below). -/
inductive Expr where
  | const : ℚ → Expr
  | var : String → Expr
  | neg : Expr → Expr
  | add : Expr → Expr → Expr
  | sub : Expr → Expr → Expr
  | mul : Expr → Expr → Expr
  | div : Expr → Expr → Expr
  | pow : Expr → ℕ → Expr
  deriving DecidableEq, Repr

/-- Evaluation of an expression at a rational valuation of the identifiers.
Division is the total division of ℚ (zero denominators evaluate to zero). -/
def Expr.eval (ρ : String → ℚ) : Expr → ℚ
  | .const c => c
  | .var s => ρ s
  | .neg e => - e.eval ρ
  | .add a b => a.eval ρ + b.eval ρ
  | .sub a b => a.eval ρ - b.eval ρ
  | .mul a b => a.eval ρ * b.eval ρ
  | .div a b => a.eval ρ / b.eval ρ
  | .pow e n => (e.eval ρ) ^ n

/-- The identifiers occurring in an expression (with multiplicity). -/
def Expr.vars : Expr → List String
  | .const _ => []
  | .var s => [s]
  | .neg e => e.vars
  | .add a b => a.vars ++ b.vars
  | .sub a b => a.vars ++ b.vars
  | .mul a b => a.vars ++ b.vars
  | .div a b => a.vars ++ b.vars
  | .pow e _ => e.vars

/-- Algebraic equality of expressions: equality of the underlying rational
functions at every valuation.  This is the shallow counterpart of equality
on canonical simplified form. -/
def Expr.equiv (a b : Expr) : Prop :=
  ∀ ρ : String → ℚ, a.eval ρ = b.eval ρ

theorem Expr.equiv_refl (a : Expr) : a.equiv a := fun _ => rfl

/-- Modelled from the spec: the Event model (§3).  The pygom Transition/Event
classes are not among the sources; an event carries an optional origin
compartment, an optional destination compartment, a rate expression and an
ordered list of secondary effects (state name, coefficient expression). -/
structure Event where
  origin : Option String
  destination : Option String
  rate : Expr
  secondary_effects : List (String × Expr)
  deriving DecidableEq, Repr

/-- Modelled from the spec: the hard-error taxonomy (§7) of the compiler and
unroll engine.  Each variant that reports a name carries the offending name. -/
inductive CompileError where
  | duplicateName : String → CompileError
  | unboundSymbol : String → CompileError
  | missingFlow : CompileError
  | selfTransition : CompileError
  | effectCollision : CompileError
  | unrollInconsistency : CompileError
  deriving DecidableEq, Repr

/-- Modelled from the spec: the compiled artifact (§4.3) - the stoichiometry
matrix D (one row per state, one column per event), the rate vector λ and
the ODE right-hand side f = D·λ. -/
structure Compiled where
  D : List (List Expr)
  lam : List Expr
  f : List Expr
  deriving DecidableEq, Repr

/-- First duplicated name in a list, if any. -/
def dupName : List String → Option String
  | [] => none
  | x :: xs => if xs.contains x then some x else dupName xs

/-- First identifier of the expression that is not declared, if any. -/
def unboundVar (decls : List String) (e : Expr) : Option String :=
  (e.vars.filter (fun v => ¬ decls.contains v)).head?

/-- The names every expression of a model may mention: the declared states,
the declared parameters, and the single reserved time identifier t. -/
def declared (states params : List String) : List String :=
  states ++ params ++ ["t"]

/-- Modelled from the spec: reference validation (§4.3).  Scans the events in
order and reports the first reference (origin, destination, rate identifier,
secondary-effect state or coefficient identifier) that is not declared. -/
def findUnbound (states params : List String) (events : List Event) : Option String :=
  events.findSome? (fun ev =>
    (match ev.origin with
     | some o => if states.contains o then none else some o
     | none => none) <|>
    (match ev.destination with
     | some d => if states.contains d then none else some d
     | none => none) <|>
    unboundVar (declared states params) ev.rate <|>
    ev.secondary_effects.findSome? (fun p =>
      (if states.contains p.1 then none else some p.1) <|>
      unboundVar (declared states params) p.2))

/-- Modelled from the spec: structural validation (§4.3, §3).  An event with
neither origin nor destination is a missing flow; an event whose origin and
destination are the same state is rejected because the data-model invariant
(a pure transition column holds exactly one -1 and one +1) forces the two
to differ; a secondary effect naming the origin or destination collides
with the direct magnitude. -/
def structuralError (events : List Event) : Option CompileError :=
  events.findSome? (fun ev =>
    if ev.origin.isNone ∧ ev.destination.isNone then some .missingFlow
    else if ev.origin.isSome ∧ ev.origin = ev.destination then some .selfTransition
    else if ev.secondary_effects.any
        (fun p => some p.1 = ev.origin ∨ some p.1 = ev.destination) then
      some .effectCollision
    else none)

/-- Modelled from the spec: the entry of the stoichiometry matrix at state s
for one event - zero-initialised, decremented on the origin row, incremented
on the destination row, with the secondary coefficients of s accumulated. -/
def stoichEntry (s : String) (ev : Event) : Expr :=
  (ev.secondary_effects.filter (fun p => p.1 = s)).foldl
    (fun acc p => Expr.add acc p.2)
    (Expr.const (if ev.origin = some s then (if ev.destination = some s then 0 else -1)
                 else (if ev.destination = some s then 1 else 0)))

/-- Sum of a list of expressions as a single expression. -/
def sumExpr (l : List Expr) : Expr := l.foldr Expr.add (Expr.const 0)

/-- Modelled from the spec: assembly of the ODE right-hand side,
f_i = Σ_k D[i][k]·λ_k (§4.3). -/
def odeRhs (states : List String) (events : List Event) : List Expr :=
  states.map (fun s => sumExpr (events.map (fun ev => Expr.mul (stoichEntry s ev) ev.rate)))

/-- Modelled from the spec: `compile(events, states, params) -> (D, λ, f)`
(§4.3).  Name validation, reference validation and structural validation run
before any artifact is assembled; the first failure aborts the call, so no
partially built matrix is ever observable.  Column k of D and the k-th rate
are derived from the k-th input event. -/
def compile (states params : List String) (events : List Event) :
    Except CompileError Compiled :=
  match dupName ("t" :: states ++ params) with
  | some n => .error (.duplicateName n)
  | none =>
    match findUnbound states params events with
    | some n => .error (.unboundSymbol n)
    | none =>
      match structuralError events with
      | some e => .error e
      | none =>
        .ok { D := states.map (fun s => events.map (stoichEntry s)),
              lam := events.map (fun ev => ev.rate),
              f := odeRhs states events }

theorem eval_sumExpr (ρ : String → ℚ) (l : List Expr) :
    (sumExpr l).eval ρ = (l.map (Expr.eval ρ)).sum := by
  induction l with
  | nil => simp [sumExpr, Expr.eval]
  | cons x xs ih => simp [sumExpr, Expr.eval] at ih ⊢; simp [ih]

/-- A signed additive term of an expanded right-hand side: the sign flag
(true for +, false for -) and the magnitude. -/
structure STerm where
  pos : Bool
  mag : Expr
  deriving DecidableEq, Repr

/-- Flip the sign of a signed term. -/
def STerm.flip (t : STerm) : STerm := ⟨!t.pos, t.mag⟩

/-- Signed value of a term at a valuation. -/
def STerm.val (ρ : String → ℚ) (t : STerm) : ℚ :=
  if t.pos then t.mag.eval ρ else - t.mag.eval ρ

/-- Signed sum of a list of terms at a valuation. -/
def termSum (ρ : String → ℚ) (l : List STerm) : ℚ :=
  (l.map (STerm.val ρ)).sum

/-- Modelled from the spec: expansion of a right-hand side into signed
additive terms (§4.4 step 1).  Sums and differences are split, unary minus
flips signs, products are distributed, quotients distribute over the
numerator, literal zero expands to no term, and negative literals carry
their sign in the sign flag. -/
def expandT : Expr → List STerm
  | .const c => if c = 0 then [] else if c < 0 then [⟨false, .const (-c)⟩] else [⟨true, .const c⟩]
  | .var s => [⟨true, .var s⟩]
  | .neg e => (expandT e).map STerm.flip
  | .add a b => expandT a ++ expandT b
  | .sub a b => expandT a ++ (expandT b).map STerm.flip
  | .mul a b =>
      (expandT a).flatMap (fun t1 =>
        (expandT b).map (fun t2 => ⟨t1.pos == t2.pos, .mul t1.mag t2.mag⟩))
  | .div a b => (expandT a).map (fun t => ⟨t.pos, .div t.mag b⟩)
  | .pow e n => [⟨true, .pow e n⟩]

theorem termSum_nil (ρ : String → ℚ) : termSum ρ [] = 0 := rfl

theorem termSum_cons (ρ : String → ℚ) (t : STerm) (l : List STerm) :
    termSum ρ (t :: l) = t.val ρ + termSum ρ l := by
  simp [termSum]

theorem termSum_append (ρ : String → ℚ) (l₁ l₂ : List STerm) :
    termSum ρ (l₁ ++ l₂) = termSum ρ l₁ + termSum ρ l₂ := by
  simp [termSum]

theorem termSum_flip (ρ : String → ℚ) (l : List STerm) :
    termSum ρ (l.map STerm.flip) = - termSum ρ l := by
  induction l with
  | nil => simp [termSum]
  | cons t l ih =>
      simp only [List.map_cons, termSum_cons, ih]
      cases h : t.pos <;> simp [STerm.val, STerm.flip, h] <;> ring

theorem termSum_perm (ρ : String → ℚ) {l₁ l₂ : List STerm} (h : l₁.Perm l₂) :
    termSum ρ l₁ = termSum ρ l₂ :=
  (h.map (STerm.val ρ)).sum_eq

/-- Expansion is sound: the signed sum of the expanded terms is the value of
the expression, at every valuation. -/
theorem termSum_expandT (ρ : String → ℚ) (e : Expr) :
    termSum ρ (expandT e) = e.eval ρ := by
  induction e with
  | const c =>
      by_cases h0 : c = 0
      · simp [expandT, h0, termSum, Expr.eval]
      · by_cases hn : c < 0
        · simp [expandT, h0, hn, termSum, STerm.val, Expr.eval]
        · simp [expandT, h0, hn, termSum, STerm.val, Expr.eval]
  | var s => simp [expandT, termSum, STerm.val, Expr.eval]
  | neg e ih => simp [expandT, termSum_flip, ih, Expr.eval]
  | add a b iha ihb => simp [expandT, termSum_append, iha, ihb, Expr.eval]
  | sub a b iha ihb =>
      simp [expandT, termSum_append, termSum_flip, iha, ihb, Expr.eval]; ring
  | mul a b iha ihb =>
      simp only [expandT, Expr.eval, ← iha, ← ihb]
      induction expandT a with
      | nil => simp [termSum]
      | cons t l ih =>
          simp only [List.flatMap_cons, termSum_append, termSum_cons, ih]
          have hmap : termSum ρ ((expandT b).map
              (fun t2 => STerm.mk (t.pos == t2.pos) (.mul t.mag t2.mag))) =
              t.val ρ * termSum ρ (expandT b) := by
            induction expandT b with
            | nil => simp [termSum]
            | cons u m ihm =>
                simp only [List.map_cons, termSum_cons, ihm]
                cases hp : t.pos <;> cases hq : u.pos <;>
                  simp [STerm.val, hp, hq, Expr.eval] <;> ring
          rw [hmap]; ring
  | div a b iha _ =>
      simp only [expandT, Expr.eval, ← iha]
      induction expandT a with
      | nil => simp [termSum, Expr.eval]
      | cons t l ih =>
          simp only [List.map_cons, termSum_cons, ih]
          cases hp : t.pos <;> simp [STerm.val, hp, Expr.eval] <;> ring
  | pow e n _ => simp [expandT, termSum, STerm.val, Expr.eval]

/-- Identifiers of expanded magnitudes all occur in the original expression. -/
theorem expandT_vars {e : Expr} {t : STerm} (ht : t ∈ expandT e) :
    ∀ v ∈ t.mag.vars, v ∈ e.vars := by
  induction e generalizing t with
  | const c =>
      intro v hv
      by_cases h0 : c = 0 <;> by_cases hn : c < 0 <;>
        simp [expandT, h0, hn] at ht <;> subst ht <;> simp [Expr.vars] at hv
  | var s =>
      intro v hv; simp [expandT] at ht; subst ht; exact hv
  | neg e ih =>
      intro v hv
      simp only [expandT, List.mem_map] at ht
      obtain ⟨u, hu, he⟩ := ht
      subst he
      exact ih hu v hv
  | add a b iha ihb =>
      intro v hv
      simp only [expandT, List.mem_append] at ht
      rcases ht with h | h
      · exact List.mem_append_left _ (iha h v hv)
      · exact List.mem_append_right _ (ihb h v hv)
  | sub a b iha ihb =>
      intro v hv
      simp only [expandT, List.mem_append, List.mem_map] at ht
      rcases ht with h | ⟨u, hu, he⟩
      · exact List.mem_append_left _ (iha h v hv)
      · subst he; exact List.mem_append_right _ (ihb hu v hv)
  | mul a b iha ihb =>
      intro v hv
      simp only [expandT, List.mem_flatMap, List.mem_map] at ht
      obtain ⟨t1, h1, t2, h2, he⟩ := ht
      subst he
      simp only [Expr.vars, List.mem_append] at hv ⊢
      rcases hv with h | h
      · exact Or.inl (iha h1 v h)
      · exact Or.inr (ihb h2 v h)
  | div a b iha _ =>
      intro v hv
      simp only [expandT, List.mem_map] at ht
      obtain ⟨u, hu, he⟩ := ht
      subst he
      simp only [Expr.vars, List.mem_append] at hv ⊢
      rcases hv with h | h
      · exact Or.inl (iha hu v h)
      · exact Or.inr h
  | pow e n _ =>
      intro v hv; simp [expandT] at ht; subst ht; exact hv

/-- Remove the first negative term of a flat (state index, term) list,
returning its state index, its magnitude and the remaining list.  The flat
list is ordered by state index, so this realises the lowest-index-first
greedy policy of the unroll engine. -/
def findNeg : List (Nat × STerm) → Option (Nat × Expr × List (Nat × STerm))
  | [] => none
  | (i, t) :: ts =>
      if t.pos then (findNeg ts).map (fun r => (r.1, r.2.1, (i, t) :: r.2.2))
      else some (i, t.mag, ts)

/-- Remove the first positive term of magnitude m held by a state other than
a, returning that state index and the remaining list. -/
def findPos (a : Nat) (m : Expr) : List (Nat × STerm) → Option (Nat × List (Nat × STerm))
  | [] => none
  | (i, t) :: ts =>
      if i ≠ a ∧ t = ⟨true, m⟩ then some (i, ts)
      else (findPos a m ts).map (fun r => (r.1, (i, t) :: r.2))

/-- Transition event inferred between two states (by index). -/
def mkTransition (states : List String) (a b : Nat) (m : Expr) : Event :=
  ⟨some (states.getD a ""), some (states.getD b ""), m, []⟩

/-- Death event inferred for one state: origin set, no destination. -/
def mkDeath (states : List String) (a : Nat) (m : Expr) : Event :=
  ⟨some (states.getD a ""), none, m, []⟩

/-- Birth event inferred for one state: destination set, no origin. -/
def mkBirth (states : List String) (a : Nat) (m : Expr) : Event :=
  ⟨none, some (states.getD a ""), m, []⟩

/-- Remaining unmatched positive terms become birth events of their owning
state (§4.4 step 4). -/
def birthsOf (states : List String) (ts : List (Nat × STerm)) : List Event :=
  ts.map (fun p => mkBirth states p.1 p.2.mag)

/-- Modelled from the spec: the matching loop of the unroll engine (§4.4
steps 2-4).  Repeatedly take the first remaining negative term; pair it with
the first positive term of identical magnitude in another state (a
transition), or, failing that, classify it as a death of its owning state;
once no negative term remains, the remaining terms become births.  The fuel
argument bounds the number of iterations by the number of terms. -/
def unrollLoop (states : List String) : Nat → List (Nat × STerm) → List Event → List Event
  | 0, ts, acc => acc ++ birthsOf states ts
  | fuel + 1, ts, acc =>
      match findNeg ts with
      | none => acc ++ birthsOf states ts
      | some (a, m, ts') =>
          match findPos a m ts' with
          | some (b, ts'') => unrollLoop states fuel ts'' (acc ++ [mkTransition states a b m])
          | none => unrollLoop states fuel ts' (acc ++ [mkDeath states a m])

/-- Flat signed-term table of an ODE system, starting at state index k:
each state's expanded terms tagged with the state index, in state order. -/
def flatTermsFrom (k : Nat) : List Expr → List (Nat × STerm)
  | [] => []
  | e :: rest => (expandT e).map (fun t => (k, t)) ++ flatTermsFrom (k + 1) rest

/-- Flat signed-term table of an ODE system: each state's expanded terms
tagged with the state index, in state order. -/
def flatTerms (odes : List Expr) : List (Nat × STerm) :=
  flatTermsFrom 0 odes

/-- The signed contribution of one event to the right-hand side of the
state with index i: -rate on its origin row and +rate on its destination
row (secondary effects play no role for inferred events, which have none). -/
def contribAt (states : List String) (i : Nat) (ev : Event) : List STerm :=
  (if ev.origin = some (states.getD i "") then [⟨false, ev.rate⟩] else []) ++
  (if ev.destination = some (states.getD i "") then [⟨true, ev.rate⟩] else [])

/-- All signed contributions of an event list to the row of state i. -/
def eventTermsAt (states : List String) (i : Nat) (events : List Event) : List STerm :=
  events.flatMap (contribAt states i)

/-- Modelled from the spec: the internal round-trip comparison of the unroll
engine (§4.4 step 5).  The reassembled system is compared with the input on
the canonical signed-term decomposition: for every state, the multiset of
signed event contributions must equal the multiset of expanded input terms. -/
def checkRoundTrip (states : List String) (odes : List Expr) (events : List Event) : Bool :=
  (List.range odes.length).all (fun i =>
    decide ((eventTermsAt states i events : Multiset STerm) =
            (expandT (odes.getD i (.const 0)) : Multiset STerm)))

/-- Modelled from the spec: `unroll(odes) -> events | Error` (§4.4).  After
name and reference validation, the right-hand sides are expanded, the
matching loop infers transitions, deaths and births, and the round-trip
comparison aborts with an unroll-inconsistency error instead of returning an
event list that does not reassemble to the input.  The ambiguity diagnostics
of §4.4 step 3 are outside the modelled fragment (no settled claim depends
on their content). -/
def unroll (states params : List String) (odes : List Expr) :
    Except CompileError (List Event) :=
  match dupName ("t" :: states ++ params) with
  | some n => .error (.duplicateName n)
  | none =>
    match odes.findSome? (unboundVar (declared states params)) with
    | some n => .error (.unboundSymbol n)
    | none =>
      let events := unrollLoop states (flatTerms odes).length (flatTerms odes) []
      if checkRoundTrip states odes events then .ok events
      else .error .unrollInconsistency

/-- The terms owned by state i in a flat table. -/
def filterIdx (ts : List (Nat × STerm)) (i : Nat) : List STerm :=
  (ts.filter (fun p => p.1 == i)).map Prod.snd

theorem filterIdx_perm {ts₁ ts₂ : List (Nat × STerm)} (h : ts₁.Perm ts₂) (i : Nat) :
    (filterIdx ts₁ i).Perm (filterIdx ts₂ i) :=
  (h.filter _).map Prod.snd

theorem filterIdx_cons (p : Nat × STerm) (ts : List (Nat × STerm)) (i : Nat) :
    filterIdx (p :: ts) i = (if p.1 = i then [p.2] else []) ++ filterIdx ts i := by
  by_cases h : p.1 = i <;> simp [filterIdx, List.filter_cons, h]

theorem filterIdx_append (ts₁ ts₂ : List (Nat × STerm)) (i : Nat) :
    filterIdx (ts₁ ++ ts₂) i = filterIdx ts₁ i ++ filterIdx ts₂ i := by
  simp [filterIdx]

/-- Indices appearing in a flat table built from index k onward. -/
theorem flatTermsFrom_idx {k : Nat} {odes : List Expr} {p : Nat × STerm}
    (hp : p ∈ flatTermsFrom k odes) : k ≤ p.1 ∧ p.1 < k + odes.length := by
  induction odes generalizing k with
  | nil => simp [flatTermsFrom] at hp
  | cons e rest ih =>
      simp only [flatTermsFrom, List.mem_append, List.mem_map] at hp
      rcases hp with ⟨t, _, he⟩ | h
      · subst he; simp
      · have := ih h
        constructor
        · omega
        · simp only [List.length_cons]; omega

/-- Magnitudes appearing in a flat table come from expanding the inputs. -/
theorem flatTermsFrom_mag {k : Nat} {odes : List Expr} {p : Nat × STerm}
    (hp : p ∈ flatTermsFrom k odes) : ∃ e ∈ odes, p.2 ∈ expandT e := by
  induction odes generalizing k with
  | nil => simp [flatTermsFrom] at hp
  | cons e rest ih =>
      simp only [flatTermsFrom, List.mem_append, List.mem_map] at hp
      rcases hp with ⟨t, ht, he⟩ | h
      · exact ⟨e, List.mem_cons_self _ _, by simp [← he, ht]⟩
      · obtain ⟨e', he', ht'⟩ := ih h
        exact ⟨e', List.mem_cons_of_mem _ he', ht'⟩

/-- The block of state k + i in a flat table built from k is the expansion
of the (i)-th input. -/
theorem filterIdx_flatTermsFrom (odes : List Expr) (k i : Nat) (hi : i < odes.length) :
    filterIdx (flatTermsFrom k odes) (k + i) = expandT (odes.getD i (.const 0)) := by
  induction odes generalizing k i with
  | nil => simp at hi
  | cons e rest ih =>
      cases i with
      | zero =>
          simp only [flatTermsFrom, filterIdx_append, Nat.add_zero, List.getD_cons_zero]
          have h1 : filterIdx ((expandT e).map (fun t => (k, t))) k = expandT e := by
            simp [filterIdx, List.filter_map, List.map_map]
          have h2 : filterIdx (flatTermsFrom (k + 1) rest) k = [] := by
            simp only [filterIdx, List.map_eq_nil_iff, List.filter_eq_nil_iff]
            intro p hp
            have := flatTermsFrom_idx hp
            simp only [beq_iff_eq]
            omega
          rw [h1, h2, List.append_nil]
      | succ i =>
          simp only [flatTermsFrom, filterIdx_append, List.getD_cons_succ]
          have h1 : filterIdx ((expandT e).map (fun t => (k, t))) (k + (i + 1)) = [] := by
            simp only [filterIdx, List.map_eq_nil_iff, List.filter_eq_nil_iff]
            intro p hp
            simp only [List.mem_map] at hp
            obtain ⟨t, _, he⟩ := hp
            subst he
            simp only [beq_iff_eq]
            omega
          have h2 : filterIdx (flatTermsFrom (k + 1) rest) (k + (i + 1)) =
              expandT (rest.getD i (.const 0)) := by
            have := ih (k + 1) i (by simpa using hi)
            simpa [Nat.add_comm, Nat.add_assoc, Nat.add_left_comm] using this
          rw [h1, h2, List.nil_append]

theorem filterIdx_flatTerms (odes : List Expr) (i : Nat) (hi : i < odes.length) :
    filterIdx (flatTerms odes) i = expandT (odes.getD i (.const 0)) := by
  have := filterIdx_flatTermsFrom odes 0 i hi
  simpa [flatTerms] using this

theorem findNeg_none {ts : List (Nat × STerm)} (h : findNeg ts = none) :
    ∀ p ∈ ts, p.2.pos = true := by
  induction ts with
  | nil => simp
  | cons q ts ih =>
      obtain ⟨i, t⟩ := q
      intro p hp
      simp only [findNeg] at h
      by_cases hpos : t.pos
      · rw [if_pos hpos, Option.map_eq_none'] at h
        rcases List.mem_cons.mp hp with he | hm
        · subst he; exact hpos
        · exact ih h p hm
      · rw [if_neg hpos] at h
        cases h

theorem findNeg_some {ts ts' : List (Nat × STerm)} {a : Nat} {m : Expr}
    (h : findNeg ts = some (a, m, ts')) :
    ts.Perm ((a, ⟨false, m⟩) :: ts') := by
  induction ts generalizing ts' with
  | nil => simp [findNeg] at h
  | cons q ts ih =>
      obtain ⟨i, t⟩ := q
      simp only [findNeg] at h
      by_cases hpos : t.pos
      · rw [if_pos hpos, Option.map_eq_some'] at h
        obtain ⟨⟨a', m', ts''⟩, hfind, heq⟩ := h
        obtain ⟨h1, h2, h3⟩ : a' = a ∧ m' = m ∧ (i, t) :: ts'' = ts' := by
          simpa using heq
        subst h1; subst h2; subst h3
        exact ((ih hfind).cons (i, t)).trans (List.Perm.swap _ _ _)
      · rw [if_neg hpos] at h
        obtain ⟨h1, h2, h3⟩ : i = a ∧ t.mag = m ∧ ts = ts' := by simpa using h
        subst h1; subst h3
        have ht : t = ⟨false, m⟩ := by
          cases t with
          | mk pos mag =>
              simp only [Bool.not_eq_true] at hpos
              simp_all
        rw [ht]

theorem findPos_some {a b : Nat} {m : Expr} {ts ts' : List (Nat × STerm)}
    (h : findPos a m ts = some (b, ts')) :
    b ≠ a ∧ ts.Perm ((b, ⟨true, m⟩) :: ts') := by
  induction ts generalizing ts' with
  | nil => simp [findPos] at h
  | cons q ts ih =>
      obtain ⟨i, t⟩ := q
      simp only [findPos] at h
      by_cases hc : i ≠ a ∧ t = ⟨true, m⟩
      · rw [if_pos hc] at h
        obtain ⟨h1, h2⟩ : i = b ∧ ts = ts' := by simpa using h
        subst h1; subst h2
        exact ⟨hc.1, by rw [hc.2]⟩
      · rw [if_neg hc, Option.map_eq_some'] at h
        obtain ⟨⟨b', ts''⟩, hfind, heq⟩ := h
        obtain ⟨h1, h2⟩ : b' = b ∧ (i, t) :: ts'' = ts' := by simpa using heq
        subst h1; subst h2
        obtain ⟨hb, hperm⟩ := ih hfind
        exact ⟨hb, (hperm.cons (i, t)).trans (List.Perm.swap _ _ _)⟩

theorem getD_inj {states : List String} (hnd : states.Nodup) {i j : Nat}
    (hi : i < states.length) (hj : j < states.length) :
    states.getD i "" = states.getD j "" ↔ i = j := by
  rw [List.getD_eq_getElem _ _ hi, List.getD_eq_getElem _ _ hj]
  exact hnd.getElem_inj_iff

theorem contribAt_mkTransition {states : List String} (hnd : states.Nodup)
    {i a b : Nat} (hi : i < states.length) (ha : a < states.length)
    (hb : b < states.length) (hab : a ≠ b) (m : Expr) :
    contribAt states i (mkTransition states a b m) =
      (if a = i then [⟨false, m⟩] else []) ++ (if b = i then [⟨true, m⟩] else []) := by
  simp only [contribAt, mkTransition, Option.some.injEq]
  by_cases hia : a = i
  · have hbi : ¬ b = i := fun hc => hab (hia.trans hc.symm)
    rw [if_pos ((getD_inj hnd ha hi).mpr hia), if_pos hia, if_neg hbi,
        if_neg (fun hc => hbi ((getD_inj hnd hb hi).mp hc))]
  · by_cases hib : b = i
    · rw [if_neg (fun hc => hia ((getD_inj hnd ha hi).mp hc)), if_neg hia,
          if_pos ((getD_inj hnd hb hi).mpr hib), if_pos hib]
    · rw [if_neg (fun hc => hia ((getD_inj hnd ha hi).mp hc)), if_neg hia,
          if_neg (fun hc => hib ((getD_inj hnd hb hi).mp hc)), if_neg hib]

theorem contribAt_mkDeath {states : List String} (hnd : states.Nodup)
    {i a : Nat} (hi : i < states.length) (ha : a < states.length) (m : Expr) :
    contribAt states i (mkDeath states a m) = if a = i then [⟨false, m⟩] else [] := by
  simp only [contribAt, mkDeath, Option.some.injEq]
  by_cases hia : a = i
  · rw [if_pos ((getD_inj hnd ha hi).mpr hia), if_pos hia]
    simp
  · rw [if_neg (fun hc => hia ((getD_inj hnd ha hi).mp hc)), if_neg hia]
    simp

theorem contribAt_mkBirth {states : List String} (hnd : states.Nodup)
    {i a : Nat} (hi : i < states.length) (ha : a < states.length) (m : Expr) :
    contribAt states i (mkBirth states a m) = if a = i then [⟨true, m⟩] else [] := by
  simp only [contribAt, mkBirth, Option.some.injEq]
  by_cases hia : a = i
  · rw [if_pos ((getD_inj hnd ha hi).mpr hia), if_pos hia]
    simp
  · rw [if_neg (fun hc => hia ((getD_inj hnd ha hi).mp hc)), if_neg hia]
    simp

theorem eventTermsAt_append (states : List String) (i : Nat) (e₁ e₂ : List Event) :
    eventTermsAt states i (e₁ ++ e₂) = eventTermsAt states i e₁ ++ eventTermsAt states i e₂ :=
  List.flatMap_append e₁ e₂ _

theorem eventTermsAt_singleton (states : List String) (i : Nat) (ev : Event) :
    eventTermsAt states i [ev] = contribAt states i ev := by
  simp [eventTermsAt]

theorem eventTermsAt_birthsOf {states : List String} (hnd : states.Nodup)
    {ts : List (Nat × STerm)} (hpos : ∀ p ∈ ts, p.2.pos = true)
    (hidx : ∀ p ∈ ts, p.1 < states.length) {i : Nat} (hi : i < states.length) :
    eventTermsAt states i (birthsOf states ts) = filterIdx ts i := by
  induction ts with
  | nil => rfl
  | cons p ts ih =>
      obtain ⟨j, t⟩ := p
      have hj : j < states.length := hidx _ (List.mem_cons_self _ _)
      have ht : t.pos = true := hpos _ (List.mem_cons_self _ _)
      have hrest₁ : ∀ p ∈ ts, p.2.pos = true := fun p hp => hpos p (List.mem_cons_of_mem _ hp)
      have hrest₂ : ∀ p ∈ ts, p.1 < states.length := fun p hp => hidx p (List.mem_cons_of_mem _ hp)
      have hstep : eventTermsAt states i (birthsOf states ((j, t) :: ts)) =
          contribAt states i (mkBirth states j t.mag) ++ eventTermsAt states i (birthsOf states ts) := by
        simp [birthsOf, eventTermsAt]
      rw [hstep, contribAt_mkBirth hnd hi hj, filterIdx_cons, ih hrest₁ hrest₂]
      have htm : t = ⟨true, t.mag⟩ := by cases t; simp_all
      by_cases hji : j = i <;> simp [hji, ← htm]

/-- Conservation through the matching loop: whatever pairing decisions are
taken, the signed contributions of the emitted events at each state are a
permutation of the signed terms consumed there. -/
theorem unrollLoop_conserve {states : List String} (hnd : states.Nodup) :
    ∀ (fuel : Nat) (ts : List (Nat × STerm)) (acc : List Event),
      ts.length ≤ fuel → (∀ p ∈ ts, p.1 < states.length) →
      ∀ i, i < states.length →
        (eventTermsAt states i (unrollLoop states fuel ts acc)).Perm
          (eventTermsAt states i acc ++ filterIdx ts i) := by
  intro fuel
  induction fuel with
  | zero =>
      intro ts acc hlen hidx i hi
      have hts : ts = [] := List.length_eq_zero.mp (Nat.le_zero.mp hlen)
      subst hts
      simp [unrollLoop, birthsOf, filterIdx, eventTermsAt]
  | succ fuel ih =>
      intro ts acc hlen hidx i hi
      cases hfn : findNeg ts with
      | none =>
          have hpos := findNeg_none hfn
          have hres : unrollLoop states (fuel + 1) ts acc = acc ++ birthsOf states ts := by
            simp [unrollLoop, hfn]
          rw [hres, eventTermsAt_append, eventTermsAt_birthsOf hnd hpos hidx hi]
      | some r =>
          obtain ⟨a, m, ts₁⟩ := r
          have hperm₁ := findNeg_some hfn
          have hats : (a, (⟨false, m⟩ : STerm)) ∈ ts :=
            hperm₁.mem_iff.mpr (List.mem_cons_self _ _)
          have ha : a < states.length := hidx _ hats
          have hidx₁ : ∀ p ∈ ts₁, p.1 < states.length := fun p hp =>
            hidx p (hperm₁.mem_iff.mpr (List.mem_cons_of_mem _ hp))
          have hlen₁ : ts₁.length + 1 = ts.length := by
            simpa using hperm₁.length_eq.symm
          have hfts : (filterIdx ts i).Perm
              ((if a = i then [(⟨false, m⟩ : STerm)] else []) ++ filterIdx ts₁ i) := by
            refine (filterIdx_perm hperm₁ i).trans ?_
            rw [filterIdx_cons]
          cases hfp : findPos a m ts₁ with
          | none =>
              have hres : unrollLoop states (fuel + 1) ts acc =
                  unrollLoop states fuel ts₁ (acc ++ [mkDeath states a m]) := by
                simp [unrollLoop, hfn, hfp]
              rw [hres]
              refine (ih ts₁ (acc ++ [mkDeath states a m]) (by omega) hidx₁ i hi).trans ?_
              rw [eventTermsAt_append, eventTermsAt_singleton, contribAt_mkDeath hnd hi ha,
                  List.append_assoc]
              exact (List.Perm.append_left _ hfts.symm)
          | some r2 =>
              obtain ⟨b, ts₂⟩ := r2
              obtain ⟨hba, hperm₂⟩ := findPos_some hfp
              have hbts : (b, (⟨true, m⟩ : STerm)) ∈ ts₁ :=
                hperm₂.mem_iff.mpr (List.mem_cons_self _ _)
              have hb : b < states.length := hidx₁ _ hbts
              have hidx₂ : ∀ p ∈ ts₂, p.1 < states.length := fun p hp =>
                hidx₁ p (hperm₂.mem_iff.mpr (List.mem_cons_of_mem _ hp))
              have hlen₂ : ts₂.length + 1 = ts₁.length := by
                simpa using hperm₂.length_eq.symm
              have hres : unrollLoop states (fuel + 1) ts acc =
                  unrollLoop states fuel ts₂ (acc ++ [mkTransition states a b m]) := by
                simp [unrollLoop, hfn, hfp]
              rw [hres]
              refine (ih ts₂ (acc ++ [mkTransition states a b m]) (by omega) hidx₂ i hi).trans ?_
              rw [eventTermsAt_append, eventTermsAt_singleton,
                  contribAt_mkTransition hnd hi ha hb (fun hc => hba hc.symm),
                  List.append_assoc]
              refine List.Perm.append_left _ ?_
              have hfts₁ : (filterIdx ts₁ i).Perm
                  ((if b = i then [(⟨true, m⟩ : STerm)] else []) ++ filterIdx ts₂ i) := by
                refine (filterIdx_perm hperm₂ i).trans ?_
                rw [filterIdx_cons]
              refine List.Perm.symm ?_
              rw [List.append_assoc]
              exact hfts.trans (List.Perm.append_left _ hfts₁)

/-- Shape of every event emitted by the matching loop: a transition between
two distinct in-range states, a death, or a birth, with a rate whose
identifiers all lie in the given declaration list, and no secondary
effects. -/
def InferredShape (states decls : List String) (ev : Event) : Prop :=
  (∃ a b m, a < states.length ∧ b < states.length ∧ a ≠ b ∧
      (∀ v ∈ Expr.vars m, v ∈ decls) ∧ ev = mkTransition states a b m) ∨
  (∃ a m, a < states.length ∧ (∀ v ∈ Expr.vars m, v ∈ decls) ∧ ev = mkDeath states a m) ∨
  (∃ a m, a < states.length ∧ (∀ v ∈ Expr.vars m, v ∈ decls) ∧ ev = mkBirth states a m)

theorem unrollLoop_shape {states decls : List String} :
    ∀ (fuel : Nat) (ts : List (Nat × STerm)) (acc : List Event),
      (∀ p ∈ ts, p.1 < states.length ∧ ∀ v ∈ p.2.mag.vars, v ∈ decls) →
      (∀ ev ∈ acc, InferredShape states decls ev) →
      ∀ ev ∈ unrollLoop states fuel ts acc, InferredShape states decls ev := by
  intro fuel
  induction fuel with
  | zero =>
      intro ts acc hts hacc ev hev
      simp only [unrollLoop, List.mem_append] at hev
      rcases hev with h | h
      · exact hacc ev h
      · simp only [birthsOf, List.mem_map] at h
        obtain ⟨p, hp, he⟩ := h
        exact Or.inr (Or.inr ⟨p.1, p.2.mag, (hts p hp).1, (hts p hp).2, he.symm⟩)
  | succ fuel ih =>
      intro ts acc hts hacc ev hev
      cases hfn : findNeg ts with
      | none =>
          rw [show unrollLoop states (fuel + 1) ts acc = acc ++ birthsOf states ts by
            simp [unrollLoop, hfn]] at hev
          rcases List.mem_append.mp hev with h | h
          · exact hacc ev h
          · simp only [birthsOf, List.mem_map] at h
            obtain ⟨p, hp, he⟩ := h
            exact Or.inr (Or.inr ⟨p.1, p.2.mag, (hts p hp).1, (hts p hp).2, he.symm⟩)
      | some r =>
          obtain ⟨a, m, ts₁⟩ := r
          have hperm₁ := findNeg_some hfn
          have hats : (a, (⟨false, m⟩ : STerm)) ∈ ts :=
            hperm₁.mem_iff.mpr (List.mem_cons_self _ _)
          have hts₁ : ∀ p ∈ ts₁, p.1 < states.length ∧ ∀ v ∈ p.2.mag.vars, v ∈ decls :=
            fun p hp => hts p (hperm₁.mem_iff.mpr (List.mem_cons_of_mem _ hp))
          cases hfp : findPos a m ts₁ with
          | none =>
              rw [show unrollLoop states (fuel + 1) ts acc =
                  unrollLoop states fuel ts₁ (acc ++ [mkDeath states a m]) by
                simp [unrollLoop, hfn, hfp]] at hev
              refine ih ts₁ _ hts₁ ?_ ev hev
              intro e he
              rcases List.mem_append.mp he with h | h
              · exact hacc e h
              · rw [List.mem_singleton.mp h]
                exact Or.inr (Or.inl ⟨a, m, (hts _ hats).1, (hts _ hats).2, rfl⟩)
          | some r2 =>
              obtain ⟨b, ts₂⟩ := r2
              obtain ⟨hba, hperm₂⟩ := findPos_some hfp
              have hbts : (b, (⟨true, m⟩ : STerm)) ∈ ts₁ :=
                hperm₂.mem_iff.mpr (List.mem_cons_self _ _)
              have hts₂ : ∀ p ∈ ts₂, p.1 < states.length ∧ ∀ v ∈ p.2.mag.vars, v ∈ decls :=
                fun p hp => hts₁ p (hperm₂.mem_iff.mpr (List.mem_cons_of_mem _ hp))
              rw [show unrollLoop states (fuel + 1) ts acc =
                  unrollLoop states fuel ts₂ (acc ++ [mkTransition states a b m]) by
                simp [unrollLoop, hfn, hfp]] at hev
              refine ih ts₂ _ hts₂ ?_ ev hev
              intro e he
              rcases List.mem_append.mp he with h | h
              · exact hacc e h
              · rw [List.mem_singleton.mp h]
                exact Or.inl ⟨a, b, m, (hts _ hats).1, (hts₁ _ hbts).1,
                  fun hc => hba hc.symm, (hts _ hats).2, rfl⟩

theorem orElse_eq_none {α : Type} {a b : Option α} :
    (a <|> b) = none ↔ a = none ∧ b = none := by
  cases a <;> simp

theorem dupName_eq_none_iff {l : List String} : dupName l = none ↔ l.Nodup := by
  induction l with
  | nil => simp [dupName]
  | cons x xs ih =>
      simp only [dupName]
      by_cases h : xs.contains x = true
      · rw [if_pos h]
        simp only [List.nodup_cons]
        constructor
        · intro hc; cases hc
        · rintro ⟨hx, _⟩; exact absurd (List.elem_iff.mp h) hx
      · rw [if_neg h]
        have hx : x ∉ xs := fun hm => h (List.elem_iff.mpr hm)
        simp [ih, hx]

theorem unboundVar_eq_none_iff {decls : List String} {e : Expr} :
    unboundVar decls e = none ↔ ∀ v ∈ e.vars, v ∈ decls := by
  simp only [unboundVar, List.head?_eq_none_iff, List.filter_eq_nil_iff]
  constructor
  · intro h v hv
    have := h v hv
    simp only [decide_not, Bool.not_eq_true', decide_eq_false_iff_not, Decidable.not_not] at this
    exact List.elem_iff.mp this
  · intro h v hv
    simp only [decide_not, Bool.not_eq_true', decide_eq_false_iff_not, Decidable.not_not]
    exact List.elem_iff.mpr (h v hv)

theorem compile_eq_ok_iff {states params : List String} {events : List Event} {c : Compiled} :
    compile states params events = .ok c ↔
      dupName ("t" :: states ++ params) = none ∧
      findUnbound states params events = none ∧
      structuralError events = none ∧
      c = ⟨states.map (fun s => events.map (stoichEntry s)),
           events.map (fun ev => ev.rate), odeRhs states events⟩ := by
  unfold compile
  cases h1 : dupName ("t" :: states ++ params) with
  | some n => simp
  | none =>
      cases h2 : findUnbound states params events with
      | some n => simp
      | none =>
          cases h3 : structuralError events with
          | some e => simp
          | none => simp [eq_comm]

theorem vars_sumExpr {l : List Expr} {v : String} (hv : v ∈ (sumExpr l).vars) :
    ∃ e ∈ l, v ∈ e.vars := by
  induction l with
  | nil => simp [sumExpr, Expr.vars] at hv
  | cons x xs ih =>
      simp only [sumExpr, List.foldr_cons, Expr.vars, List.mem_append] at hv
      rcases hv with h | h
      · exact ⟨x, List.mem_cons_self _ _, h⟩
      · obtain ⟨e, he, hve⟩ := ih h
        exact ⟨e, List.mem_cons_of_mem _ he, hve⟩

theorem vars_foldl_add {l : List (String × Expr)} {init : Expr} {v : String}
    (hv : v ∈ (l.foldl (fun acc p => Expr.add acc p.2) init).vars) :
    v ∈ init.vars ∨ ∃ p ∈ l, v ∈ p.2.vars := by
  induction l generalizing init with
  | nil => exact Or.inl hv
  | cons q l ih =>
      simp only [List.foldl_cons] at hv
      rcases ih hv with h | h
      · simp only [Expr.vars, List.mem_append] at h
        rcases h with h | h
        · exact Or.inl h
        · exact Or.inr ⟨q, List.mem_cons_self _ _, h⟩
      · obtain ⟨p, hp, hvp⟩ := h
        exact Or.inr ⟨p, List.mem_cons_of_mem _ hp, hvp⟩

theorem vars_stoichEntry {s : String} {ev : Event} {v : String}
    (hv : v ∈ (stoichEntry s ev).vars) :
    ∃ p ∈ ev.secondary_effects, v ∈ p.2.vars := by
  unfold stoichEntry at hv
  rcases vars_foldl_add hv with h | h
  · simp [Expr.vars] at h
  · obtain ⟨p, hp, hvp⟩ := h
    exact ⟨p, List.mem_of_mem_filter hp, hvp⟩

/-- Under a passing reference validation, every component of the assembled
right-hand side mentions only declared identifiers. -/
theorem odeRhs_bound {states params : List String} {events : List Event}
    (hub : findUnbound states params events = none) :
    ∀ e ∈ odeRhs states events, ∀ v ∈ e.vars, v ∈ declared states params := by
  have hper := List.findSome?_eq_none_iff.mp hub
  intro e he v hv
  simp only [odeRhs, List.mem_map] at he
  obtain ⟨s, _, hes⟩ := he
  subst hes
  obtain ⟨g, hg, hvg⟩ := vars_sumExpr hv
  simp only [List.mem_map] at hg
  obtain ⟨ev, hev, hge⟩ := hg
  have hchain := hper ev hev
  rw [orElse_eq_none] at hchain
  have hchain2 := hchain.2
  rw [orElse_eq_none] at hchain2
  have hchain3 := hchain2.2
  rw [orElse_eq_none] at hchain3
  subst hge
  simp only [Expr.vars, List.mem_append] at hvg
  rcases hvg with h | h
  · obtain ⟨p, hp, hvp⟩ := vars_stoichEntry h
    have := List.findSome?_eq_none_iff.mp hchain3.2 p hp
    rw [orElse_eq_none] at this
    exact unboundVar_eq_none_iff.mp this.2 v hvp
  · exact unboundVar_eq_none_iff.mp hchain3.1 v h

theorem eval_stoich_mul_contrib (s : String) (ev : Event)
    (hsec : ev.secondary_effects = []) (ρ : String → ℚ) :
    (Expr.mul (stoichEntry s ev) ev.rate).eval ρ =
      termSum ρ ((if ev.origin = some s then [⟨false, ev.rate⟩] else []) ++
                 (if ev.destination = some s then [⟨true, ev.rate⟩] else [])) := by
  simp only [stoichEntry, hsec, List.filter_nil, List.foldl_nil]
  by_cases ho : ev.origin = some s <;>
    by_cases hd : ev.destination = some s <;>
      simp [ho, hd, Expr.eval, termSum, STerm.val]

theorem eval_stoichEntry_mul {states : List String} {i : Nat}
    (ev : Event) (hsec : ev.secondary_effects = []) (ρ : String → ℚ) :
    (Expr.mul (stoichEntry (states.getD i "") ev) ev.rate).eval ρ =
      termSum ρ (contribAt states i ev) :=
  eval_stoich_mul_contrib (states.getD i "") ev hsec ρ

theorem sum_eval_events {states : List String} {i : Nat} (ρ : String → ℚ) :
    ∀ events : List Event, (∀ ev ∈ events, ev.secondary_effects = []) →
      ((events.map (fun ev =>
        (Expr.mul (stoichEntry (states.getD i "") ev) ev.rate).eval ρ)).sum =
        termSum ρ (eventTermsAt states i events)) := by
  intro events
  induction events with
  | nil => intro _; simp [eventTermsAt, termSum]
  | cons ev evs ih =>
      intro hsec
      have hstep : eventTermsAt states i (ev :: evs) =
          contribAt states i ev ++ eventTermsAt states i evs := by
        simp [eventTermsAt]
      rw [List.map_cons, List.sum_cons, hstep, termSum_append,
          eval_stoichEntry_mul ev (hsec ev (List.mem_cons_self _ _)) ρ,
          ih (fun e he => hsec e (List.mem_cons_of_mem _ he))]

theorem eval_odeRhs_getD {states : List String} {events : List Event}
    (hsec : ∀ ev ∈ events, ev.secondary_effects = []) {i : Nat} (hi : i < states.length)
    (ρ : String → ℚ) :
    ((odeRhs states events).getD i (.const 0)).eval ρ =
      termSum ρ (eventTermsAt states i events) := by
  have hlen : i < (odeRhs states events).length := by simp [odeRhs, hi]
  rw [List.getD_eq_getElem _ _ hlen]
  unfold odeRhs
  rw [List.getElem_map]
  rw [show states[i] = states.getD i "" from (List.getD_eq_getElem states "" hi).symm]
  rw [eval_sumExpr, List.map_map]
  exact sum_eval_events ρ events hsec

theorem getD_mem {states : List String} {a : Nat} (ha : a < states.length) :
    states.getD a "" ∈ states := by
  rw [List.getD_eq_getElem _ _ ha]
  exact List.getElem_mem ha

theorem unroll_eq_ok_iff {states params : List String} {odes : List Expr} {evs : List Event} :
    unroll states params odes = .ok evs ↔
      dupName ("t" :: states ++ params) = none ∧
      odes.findSome? (unboundVar (declared states params)) = none ∧
      checkRoundTrip states odes
        (unrollLoop states (flatTerms odes).length (flatTerms odes) []) = true ∧
      evs = unrollLoop states (flatTerms odes).length (flatTerms odes) [] := by
  unfold unroll
  cases h1 : dupName ("t" :: states ++ params) with
  | some n => simp
  | none =>
      cases h2 : odes.findSome? (unboundVar (declared states params)) with
      | some n => simp
      | none =>
          by_cases h3 : checkRoundTrip states odes
              (unrollLoop states (flatTerms odes).length (flatTerms odes) []) = true
          · simp [h3, eq_comm]
          · simp [h3]

theorem states_nodup_of_dupName {states params : List String}
    (hdup : dupName ("t" :: states ++ params) = none) : states.Nodup := by
  have h := dupName_eq_none_iff.mp hdup
  have h2 : (states ++ params).Nodup := (List.nodup_cons.mp h).2
  exact (List.nodup_append.mp h2).1

theorem unroll_succeeds {states params : List String} {odes : List Expr}
    (hdup : dupName ("t" :: states ++ params) = none)
    (hub : odes.findSome? (unboundVar (declared states params)) = none)
    (hlen : odes.length ≤ states.length) :
    unroll states params odes =
      .ok (unrollLoop states (flatTerms odes).length (flatTerms odes) []) := by
  have hnd : states.Nodup := states_nodup_of_dupName hdup
  have hidx : ∀ p ∈ flatTerms odes, p.1 < states.length := by
    intro p hp
    have := (flatTermsFrom_idx hp).2
    simp only [Nat.zero_add] at this
    omega
  have hcheck : checkRoundTrip states odes
      (unrollLoop states (flatTerms odes).length (flatTerms odes) []) = true := by
    unfold checkRoundTrip
    rw [List.all_eq_true]
    intro i hi
    have hio : i < odes.length := List.mem_range.mp hi
    have his : i < states.length := lt_of_lt_of_le hio hlen
    have hperm := unrollLoop_conserve hnd (flatTerms odes).length (flatTerms odes) []
      le_rfl hidx i his
    rw [decide_eq_true_eq]
    refine Multiset.coe_eq_coe.mpr ?_
    rw [← filterIdx_flatTerms odes i hio]
    simpa [eventTermsAt] using hperm
  exact unroll_eq_ok_iff.mpr ⟨hdup, hub, hcheck, rfl⟩

theorem compile_inferred_ok {states params : List String} {evs : List Event}
    (hdup : dupName ("t" :: states ++ params) = none)
    (hshape : ∀ ev ∈ evs, InferredShape states (declared states params) ev) :
    ∃ c₂ : Compiled, compile states params evs = .ok c₂ ∧ c₂.f = odeRhs states evs := by
  have hnd : states.Nodup := states_nodup_of_dupName hdup
  refine ⟨⟨states.map (fun s => evs.map (stoichEntry s)),
    evs.map (fun ev => ev.rate), odeRhs states evs⟩, ?_, rfl⟩
  rw [compile_eq_ok_iff]
  refine ⟨hdup, ?_, ?_, rfl⟩
  · unfold findUnbound
    rw [List.findSome?_eq_none_iff]
    intro ev hev
    rcases hshape ev hev with ⟨a, b, m, ha, hb, _, hbound, he⟩ |
      ⟨a, m, ha, hbound, he⟩ | ⟨a, m, ha, hbound, he⟩ <;> subst he
    · simp [mkTransition, unboundVar_eq_none_iff.mpr hbound, Option.orElse]
      exact ⟨by simpa using getD_mem ha, by simpa using getD_mem hb⟩
    · simp [mkDeath, unboundVar_eq_none_iff.mpr hbound, Option.orElse]
      exact (by simpa using getD_mem ha)
    · simp [mkBirth, unboundVar_eq_none_iff.mpr hbound, Option.orElse]
      exact (by simpa using getD_mem ha)
  · unfold structuralError
    rw [List.findSome?_eq_none_iff]
    intro ev hev
    rcases hshape ev hev with ⟨a, b, m, ha, hb, hab, _, he⟩ |
      ⟨a, m, ha, _, he⟩ | ⟨a, m, ha, _, he⟩ <;> subst he
    · have hne : states.getD a "" ≠ states.getD b "" :=
        fun hc => hab ((getD_inj hnd ha hb).mp hc)
      simp [mkTransition]
      simpa using hne
    · simp [mkDeath]
    · simp [mkBirth]

/-- Every event emitted by the matching loop has no secondary effects. -/
theorem inferred_no_secondary {states decls : List String} {ev : Event}
    (h : InferredShape states decls ev) : ev.secondary_effects = [] := by
  rcases h with ⟨_, _, _, _, _, _, _, he⟩ | ⟨_, _, _, _, he⟩ | ⟨_, _, _, _, he⟩ <;>
    subst he <;> rfl

/-- The round-trip core: unrolling the compiled right-hand side of any
accepted event list succeeds, and recompiling the inferred events reproduces
a right-hand side algebraically equal to the original, component by
component. -/
theorem unroll_compile_roundTrip {states params : List String} {E : List Event}
    {c : Compiled} (h : compile states params E = .ok c) :
    ∃ evs, unroll states params c.f = .ok evs ∧
      ∃ c₂, compile states params evs = .ok c₂ ∧
        ∀ i, ((c₂.f).getD i (.const 0)).equiv ((c.f).getD i (.const 0)) := by
  obtain ⟨hdup, hubE, hstruct, hc⟩ := compile_eq_ok_iff.mp h
  have hnd : states.Nodup := states_nodup_of_dupName hdup
  have hcf : c.f = odeRhs states E := by rw [hc]
  have hflen : c.f.length = states.length := by rw [hcf]; simp [odeRhs]
  have hbound : ∀ e ∈ c.f, ∀ v ∈ e.vars, v ∈ declared states params := by
    rw [hcf]; exact odeRhs_bound hubE
  have hub2 : c.f.findSome? (unboundVar (declared states params)) = none :=
    List.findSome?_eq_none_iff.mpr
      (fun e he => unboundVar_eq_none_iff.mpr (hbound e he))
  have hunroll := unroll_succeeds hdup hub2 (le_of_eq hflen)
  have hts : ∀ p ∈ flatTerms c.f,
      p.1 < states.length ∧ ∀ v ∈ p.2.mag.vars, v ∈ declared states params := by
    intro p hp
    constructor
    · have := (flatTermsFrom_idx hp).2
      simp only [Nat.zero_add] at this
      omega
    · obtain ⟨e, he, ht⟩ := flatTermsFrom_mag hp
      exact fun v hv => hbound e he v (expandT_vars ht v hv)
  have hshape := unrollLoop_shape (flatTerms c.f).length (flatTerms c.f) [] hts (by simp)
  obtain ⟨c₂, hcomp2, hc2f⟩ := compile_inferred_ok hdup hshape
  refine ⟨_, hunroll, c₂, hcomp2, ?_⟩
  intro i ρ
  by_cases hi : i < states.length
  · have hsec : ∀ ev ∈ unrollLoop states (flatTerms c.f).length (flatTerms c.f) [],
        ev.secondary_effects = [] :=
      fun ev hev => inferred_no_secondary (hshape ev hev)
    rw [hc2f, eval_odeRhs_getD hsec hi ρ]
    have hperm := unrollLoop_conserve hnd (flatTerms c.f).length (flatTerms c.f) []
      le_rfl (fun p hp => (hts p hp).1) i hi
    rw [termSum_perm ρ hperm]
    have hio : i < c.f.length := hflen ▸ hi
    have hnilapp : eventTermsAt states i ([] : List Event) ++ filterIdx (flatTerms c.f) i =
        filterIdx (flatTerms c.f) i := by simp [eventTermsAt]
    rw [hnilapp, filterIdx_flatTerms c.f i hio, termSum_expandT]
  · have h1 : (c₂.f).getD i (.const 0) = .const 0 := by
      refine List.getD_eq_default _ _ ?_
      rw [hc2f]
      simp only [odeRhs, List.length_map]
      omega
    have h2 : (c.f).getD i (.const 0) = .const 0 :=
      List.getD_eq_default _ _ (by omega)
    rw [h1, h2]

/-- States of the SIR scenario of the model-definition notebook. -/
def sirStates : List String := ["S", "I", "R"]

/-- Parameters of the SIR scenario. -/
def sirParams : List String := ["beta", "gamma", "N"]

/-- The infection rate beta*S*I/N, as parsed left-associatively. -/
def rateInfection : Expr :=
  .div (.mul (.mul (.var "beta") (.var "S")) (.var "I")) (.var "N")

/-- The recovery rate gamma*I. -/
def rateRecovery : Expr := .mul (.var "gamma") (.var "I")

/-- The two events of the SIR scenario: infection S to I and recovery
I to R, in that order. -/
def sirEvents : List Event :=
  [⟨some "S", some "I", rateInfection, []⟩, ⟨some "I", some "R", rateRecovery, []⟩]

/-- C1: compiling the SIR model with states S, I, R and parameters beta,
gamma, N from the two-event list (infection S→I at rate beta*S*I/N, then
recovery I→R at rate gamma*I) yields the stoichiometry matrix
D = [[-1,0],[1,-1],[0,1]], the rate vector λ = (beta*S*I/N, gamma*I), and a
right-hand side algebraically equal to f_S = -beta*S*I/N,
f_I = beta*S*I/N - gamma*I, f_R = gamma*I. -/
theorem C1_sir_scenario :
    ∃ c, compile sirStates sirParams sirEvents = .ok c ∧
      c.D = [[Expr.const (-1), Expr.const 0],
             [Expr.const 1, Expr.const (-1)],
             [Expr.const 0, Expr.const 1]] ∧
      c.lam = [rateInfection, rateRecovery] ∧
      (c.f.getD 0 (.const 0)).equiv (.neg rateInfection) ∧
      (c.f.getD 1 (.const 0)).equiv (.sub rateInfection rateRecovery) ∧
      (c.f.getD 2 (.const 0)).equiv rateRecovery := by
  refine ⟨⟨[[Expr.const (-1), Expr.const 0],
            [Expr.const 1, Expr.const (-1)],
            [Expr.const 0, Expr.const 1]],
           [rateInfection, rateRecovery],
           [.add (.mul (.const (-1)) rateInfection) (.add (.mul (.const 0) rateRecovery) (.const 0)),
            .add (.mul (.const 1) rateInfection) (.add (.mul (.const (-1)) rateRecovery) (.const 0)),
            .add (.mul (.const 0) rateInfection) (.add (.mul (.const 1) rateRecovery) (.const 0))]⟩,
    rfl, rfl, rfl, ?_, ?_, ?_⟩
  · intro ρ
    simp [List.getD, rateInfection, rateRecovery, Expr.eval]
  · intro ρ
    simp [List.getD, rateInfection, rateRecovery, Expr.eval]
    ring
  · intro ρ
    simp [List.getD, rateInfection, rateRecovery, Expr.eval]

/-- C3: for every event list accepted by compile, unrolling the compiled
right-hand side succeeds and re-compiling the inferred event list yields an
ODE system algebraically identical to the original f, component by
component, even though the inferred events may differ from the input; and
unroll only ever returns an event list after its internal round-trip
comparison has passed, raising an unroll-inconsistency error otherwise. -/
theorem C3_unroll_roundTrip (states params : List String) (E : List Event)
    (c : Compiled) (h : compile states params E = .ok c) :
    (∃ evs, unroll states params c.f = .ok evs ∧
      ∃ c₂, compile states params evs = .ok c₂ ∧
        ∀ i, ((c₂.f).getD i (.const 0)).equiv ((c.f).getD i (.const 0))) ∧
    (∀ (odes : List Expr) (evs₂ : List Event), unroll states params odes = .ok evs₂ →
      checkRoundTrip states odes evs₂ = true) := by
  constructor
  · exact unroll_compile_roundTrip h
  · intro odes evs₂ hok
    obtain ⟨_, _, hchk, hevs⟩ := unroll_eq_ok_iff.mp hok
    rw [hevs]
    exact hchk

/-- The compiled SIR artifact, extracted from the compiler output. -/
def sirCompiled : Compiled :=
  (compile sirStates sirParams sirEvents).toOption.getD ⟨[], [], []⟩

theorem C3_unroll_roundTrip_witness :
    (∃ evs, unroll sirStates sirParams sirCompiled.f = .ok evs ∧
      ∃ c₂, compile sirStates sirParams evs = .ok c₂ ∧
        ∀ i, ((c₂.f).getD i (.const 0)).equiv ((sirCompiled.f).getD i (.const 0))) ∧
    (∀ (odes : List Expr) (evs₂ : List Event),
      unroll sirStates sirParams odes = .ok evs₂ →
      checkRoundTrip sirStates odes evs₂ = true) :=
  C3_unroll_roundTrip sirStates sirParams sirEvents sirCompiled rfl

/-- The event that List.getD falls back to outside the index range. -/
def defaultEvent : Event := ⟨none, none, .const 0, []⟩

/-- C7: for every accepted event list, the column order of D and the entry
order of λ equal the input event order exactly - the k-th rate is the k-th
event rate, and the k-th column of D is derived from the k-th input
event. -/
theorem C7_column_order (states params : List String) (events : List Event)
    (c : Compiled) (h : compile states params events = .ok c) :
    c.lam = events.map (fun ev => ev.rate) ∧
    ∀ k, k < events.length →
      c.lam.getD k (.const 0) = (events.getD k defaultEvent).rate ∧
      c.D.map (fun row => row.getD k (.const 0)) =
        states.map (fun s => stoichEntry s (events.getD k defaultEvent)) := by
  obtain ⟨_, _, _, hc⟩ := compile_eq_ok_iff.mp h
  subst hc
  refine ⟨rfl, fun k hk => ⟨?_, ?_⟩⟩
  · rw [List.getD_eq_getElem _ _ (by simpa using hk), List.getElem_map,
        List.getD_eq_getElem _ _ hk]
  · rw [List.map_map]
    refine List.map_congr_left ?_
    intro s _
    simp only [Function.comp]
    rw [List.getD_eq_getElem _ _ (by simpa using hk), List.getElem_map,
        List.getD_eq_getElem _ _ hk]

theorem C7_column_order_witness :
    sirCompiled.lam = sirEvents.map (fun ev => ev.rate) ∧
    ∀ k, k < sirEvents.length →
      sirCompiled.lam.getD k (.const 0) = (sirEvents.getD k defaultEvent).rate ∧
      sirCompiled.D.map (fun row => row.getD k (.const 0)) =
        sirStates.map (fun s => stoichEntry s (sirEvents.getD k defaultEvent)) :=
  C7_column_order sirStates sirParams sirEvents sirCompiled rfl


theorem getD_map_lt {α β : Type} (l : List α) (g : α → β) (d : α) (d' : β) {k : Nat}
    (hk : k < l.length) : (l.map g).getD k d' = g (l.getD k d) := by
  rw [List.getD_eq_getElem _ _ (by simpa using hk), List.getElem_map,
      List.getD_eq_getElem _ _ hk]

theorem range_map_getD {α β : Type} (l : List α) (d : α) (F : α → β) :
    (List.range l.length).map (fun k => F (l.getD k d)) = l.map F := by
  induction l with
  | nil => simp
  | cons x xs ih =>
      rw [List.length_cons, List.range_succ_eq_map, List.map_cons, List.map_map,
          List.map_cons, List.getD_cons_zero]
      congr 1


/-- States of the SIR(E) model of the model-definition notebook. -/
def sireStates : List String := ["S", "I", "R", "E"]

/-- Parameters of the SIR(E) model. -/
def sireParams : List String := ["beta", "gamma", "N", "ci"]

/-- Right-hand sides of the SIR(E) model given directly as ODE equations. -/
def sireOdes : List Expr :=
  [.neg rateInfection,
   .sub rateInfection rateRecovery,
   rateRecovery,
   .neg (.mul (.var "ci") rateInfection)]

/-- The SIR(E) model given as two transition events, the infection event
carrying the secondary effect (E, -ci). -/
def sireTransEvents : List Event :=
  [⟨some "S", some "I", rateInfection, [("E", .neg (.var "ci"))]⟩,
   ⟨some "I", some "R", rateRecovery, []⟩]

/-- C5: for every accepted event list, each component of the returned
right-hand side evaluates to the sum over all events k of D[i][k]·λ_k; and
the SIR(E) model defined via transition events yields a right-hand side
algebraically equal to the one defined directly via the corresponding ODE
equations. -/
theorem C5_rhs_assembly (states params : List String) (events : List Event)
    (c : Compiled) (h : compile states params events = .ok c) :
    (∀ i (ρ : String → ℚ), ((c.f).getD i (.const 0)).eval ρ =
      ((List.range events.length).map (fun k =>
        ((c.D.getD i []).getD k (.const 0)).eval ρ *
        (c.lam.getD k (.const 0)).eval ρ)).sum) ∧
    (∃ cT, compile sireStates sireParams sireTransEvents = .ok cT ∧
      ∀ i, ((cT.f).getD i (.const 0)).equiv (sireOdes.getD i (.const 0))) := by
  constructor
  · obtain ⟨_, _, _, hc⟩ := compile_eq_ok_iff.mp h
    subst hc
    intro i ρ
    by_cases hi : i < states.length
    · have hrow : ((states.map (fun s => events.map (stoichEntry s))).getD i []) =
          events.map (stoichEntry (states.getD i "")) :=
        getD_map_lt states _ "" [] hi
      have hfi : ((odeRhs states events).getD i (.const 0)) =
          sumExpr (events.map (fun ev =>
            Expr.mul (stoichEntry (states.getD i "") ev) ev.rate)) := by
        unfold odeRhs
        exact getD_map_lt states _ "" (Expr.const 0) hi
      simp only [hrow, hfi]
      rw [eval_sumExpr, List.map_map]
      have hcong : (List.range events.length).map (fun k =>
          ((events.map (stoichEntry (states.getD i ""))).getD k (Expr.const 0)).eval ρ *
          ((events.map (fun ev => ev.rate)).getD k (Expr.const 0)).eval ρ) =
          (List.range events.length).map (fun k =>
            (Expr.eval ρ ∘ fun ev => Expr.mul (stoichEntry (states.getD i "") ev) ev.rate)
              (events.getD k defaultEvent)) := by
        refine List.map_congr_left ?_
        intro k hk
        have hk2 : k < events.length := List.mem_range.mp hk
        rw [getD_map_lt events (stoichEntry (states.getD i "")) defaultEvent (Expr.const 0) hk2,
            getD_map_lt events (fun ev => ev.rate) defaultEvent (Expr.const 0) hk2]
        simp [Expr.eval]
      rw [hcong, range_map_getD events defaultEvent
        (Expr.eval ρ ∘ fun ev => Expr.mul (stoichEntry (states.getD i "") ev) ev.rate)]
    · have h1 : ((odeRhs states events).getD i (.const 0)) = .const 0 := by
        refine List.getD_eq_default _ _ ?_
        simp only [odeRhs, List.length_map]
        omega
      have h2 : ((states.map (fun s => events.map (stoichEntry s))).getD i []) = [] := by
        refine List.getD_eq_default _ _ ?_
        simp only [List.length_map]
        omega
      rw [h1, h2]
      simp [Expr.eval, List.getD]
  · refine ⟨⟨[[Expr.const (-1), Expr.const 0],
              [Expr.const 1, Expr.const (-1)],
              [Expr.const 0, Expr.const 1],
              [Expr.add (.const 0) (.neg (.var "ci")), Expr.const 0]],
             [rateInfection, rateRecovery],
             [.add (.mul (.const (-1)) rateInfection) (.add (.mul (.const 0) rateRecovery) (.const 0)),
              .add (.mul (.const 1) rateInfection) (.add (.mul (.const (-1)) rateRecovery) (.const 0)),
              .add (.mul (.const 0) rateInfection) (.add (.mul (.const 1) rateRecovery) (.const 0)),
              .add (.mul (.add (.const 0) (.neg (.var "ci"))) rateInfection)
                (.add (.mul (.const 0) rateRecovery) (.const 0))]⟩,
      rfl, ?_⟩
    intro i
    match i with
    | 0 =>
        intro ρ
        simp [List.getD, sireOdes, rateInfection, rateRecovery, Expr.eval]
    | 1 =>
        intro ρ
        simp [List.getD, sireOdes, rateInfection, rateRecovery, Expr.eval]
        ring
    | 2 =>
        intro ρ
        simp [List.getD, sireOdes, rateInfection, rateRecovery, Expr.eval]
    | 3 =>
        intro ρ
        simp [List.getD, sireOdes, rateInfection, rateRecovery, Expr.eval]
    | (n + 4) =>
        intro ρ
        simp [List.getD, sireOdes, Expr.eval]

theorem C5_rhs_assembly_witness :
    (∀ i (ρ : String → ℚ), ((sirCompiled.f).getD i (.const 0)).eval ρ =
      ((List.range sirEvents.length).map (fun k =>
        ((sirCompiled.D.getD i []).getD k (.const 0)).eval ρ *
        (sirCompiled.lam.getD k (.const 0)).eval ρ)).sum) ∧
    (∃ cT, compile sireStates sireParams sireTransEvents = .ok cT ∧
      ∀ i, ((cT.f).getD i (.const 0)).equiv (sireOdes.getD i (.const 0))) :=
  C5_rhs_assembly sirStates sirParams sirEvents sirCompiled rfl

/-- The stoichiometry entry of a pure transition event is the signed
indicator of the origin and destination rows. -/
theorem stoichEntry_pure {ev : Event} {o d : String} (ho : ev.origin = some o)
    (hd : ev.destination = some d) (hsec : ev.secondary_effects = [])
    (hne : o ≠ d) (s : String) :
    stoichEntry s ev = Expr.const (if o = s then -1 else if d = s then 1 else 0) := by
  simp only [stoichEntry, hsec, List.filter_nil, List.foldl_nil, ho, hd, Option.some.injEq]
  by_cases h1 : o = s
  · have h2 : ¬ d = s := fun hc => hne (h1.trans hc.symm)
    rw [if_pos h1, if_pos h1, if_neg h2]
  · rw [if_neg h1, if_neg h1]

/-- Sum of a single indicator column over a name list. -/
theorem sum_single_indicator (l : List String) (a : String) (c : ℚ) :
    (l.map (fun s => if a = s then c else 0)).sum = (l.count a : ℚ) * c := by
  induction l with
  | nil => simp
  | cons x xs ih =>
      rw [List.map_cons, List.sum_cons, ih, List.count_cons]
      by_cases h : a = x
      · rw [if_pos h, if_pos (beq_iff_eq.mpr h.symm)]
        push_cast
        ring
      · rw [if_neg h, if_neg (fun hc => h (beq_iff_eq.mp hc).symm)]
        push_cast
        ring

theorem sum_map_add {α : Type} (l : List α) (f g : α → ℚ) :
    (l.map (fun x => f x + g x)).sum = (l.map f).sum + (l.map g).sum := by
  induction l with
  | nil => simp
  | cons x xs ih =>
      simp only [List.map_cons, List.sum_cons, ih]
      ring

/-- Sum of the signed indicator of two distinct names over a name list. -/
theorem sum_signed_indicator (states : List String) (o d : String) (hne : o ≠ d) :
    (states.map (fun s => (if o = s then (-1 : ℚ) else if d = s then 1 else 0))).sum =
      (states.count o : ℚ) * (-1) + (states.count d : ℚ) * 1 := by
  have hsplit : states.map (fun s => (if o = s then (-1 : ℚ) else if d = s then 1 else 0)) =
      states.map (fun s => (if o = s then (-1 : ℚ) else 0) + (if d = s then 1 else 0)) := by
    refine List.map_congr_left ?_
    intro s _
    by_cases h1 : o = s
    · have h2 : ¬ d = s := fun hc => hne (h1.trans hc.symm)
      simp [h1, h2]
    · simp [h1]
  rw [hsplit, sum_map_add states (fun s => if o = s then (-1 : ℚ) else 0)
        (fun s => if d = s then (1 : ℚ) else 0),
      sum_single_indicator states o (-1), sum_single_indicator states d 1]

/-- Under a passing reference validation, every named origin and destination
is a declared state. -/
theorem findUnbound_none_refs {states params : List String} {events : List Event}
    (hub : findUnbound states params events = none) {ev : Event} (hev : ev ∈ events) :
    (∀ o, ev.origin = some o → o ∈ states) ∧
    (∀ d, ev.destination = some d → d ∈ states) := by
  have h := List.findSome?_eq_none_iff.mp hub ev hev
  rw [orElse_eq_none] at h
  obtain ⟨h1, h2⟩ := h
  rw [orElse_eq_none] at h2
  obtain ⟨h2, _⟩ := h2
  constructor
  · intro o ho
    simp only [ho] at h1
    by_cases hc : states.contains o = true
    · exact List.elem_iff.mp hc
    · rw [if_neg hc] at h1
      cases h1
  · intro d hd
    simp only [hd] at h2
    by_cases hc : states.contains d = true
    · exact List.elem_iff.mp hc
    · rw [if_neg hc] at h2
      cases h2

/-- Under a passing structural validation, no event with an origin has that
origin equal to its destination. -/
theorem structuralError_none_not_self {events : List Event}
    (hs : structuralError events = none) {ev : Event} (hev : ev ∈ events) :
    ¬(ev.origin.isSome ∧ ev.origin = ev.destination) := by
  have h := List.findSome?_eq_none_iff.mp hs ev hev
  intro hc
  have hno : ¬(ev.origin.isNone = true ∧ ev.destination.isNone = true) := by
    rintro ⟨h1, _⟩
    rw [Option.isNone_iff_eq_none] at h1
    rw [h1] at hc
    cases hc.1
  rw [if_neg hno, if_pos hc] at h
  cases h

/-- The count of each signed entry in an indicator column. -/
theorem count_const_indicator (states : List String) (o d : String) (hne : o ≠ d) :
    ((states.map (fun s =>
        Expr.const (if o = s then -1 else if d = s then 1 else 0))).count
      (Expr.const (-1)) = states.count o) ∧
    ((states.map (fun s =>
        Expr.const (if o = s then -1 else if d = s then 1 else 0))).count
      (Expr.const 1) = states.count d) := by
  have hm1 : ((-1 : ℚ) = 1) = False := by norm_num
  have hm2 : ((1 : ℚ) = -1) = False := by norm_num
  have hm3 : ((0 : ℚ) = -1) = False := by norm_num
  have hm4 : ((0 : ℚ) = 1) = False := by norm_num
  constructor
  · rw [List.count, List.countP_map, List.count]
    refine List.countP_congr ?_
    intro s _
    simp only [Function.comp, beq_iff_eq, Expr.const.injEq]
    by_cases h1 : o = s
    · simp [h1]
    · by_cases h2 : d = s <;>
        simp [h1, h2, hm2, hm3, Ne.symm h1]
  · rw [List.count, List.countP_map, List.count]
    refine List.countP_congr ?_
    intro s _
    simp only [Function.comp, beq_iff_eq, Expr.const.injEq]
    by_cases h1 : o = s
    · have h2 : ¬ s = d := fun hc => hne (h1.trans hc)
      simp [h1, h2, hm1]
    · by_cases h2 : d = s
      · simp [h1, h2]
      · simp [h1, h2, hm4, Ne.symm h2]

/-- C6: for a compiled model whose events are all pure transitions (origin
and destination both set, no secondary effects), every column of D holds
exactly one -1, located in the origin row, and exactly one +1, located in
the destination row, and every column sums to exactly 0. -/
theorem C6_pure_transition_columns (states params : List String) (events : List Event)
    (c : Compiled) (h : compile states params events = .ok c)
    (hpure : ∀ ev ∈ events, ev.origin.isSome ∧ ev.destination.isSome ∧
      ev.secondary_effects = []) :
    ∀ k, k < events.length →
      ((c.D.map (fun row => row.getD k (Expr.const 0))).count (Expr.const (-1)) = 1 ∧
       (c.D.map (fun row => row.getD k (Expr.const 0))).count (Expr.const 1) = 1) ∧
      (∀ i, i < states.length →
        (((c.D.map (fun row => row.getD k (Expr.const 0))).getD i (Expr.const 0) =
            Expr.const (-1)) ↔
          (events.getD k defaultEvent).origin = some (states.getD i "")) ∧
        (((c.D.map (fun row => row.getD k (Expr.const 0))).getD i (Expr.const 0) =
            Expr.const 1) ↔
          (events.getD k defaultEvent).destination = some (states.getD i ""))) ∧
      (∀ ρ : String → ℚ,
        ((c.D.map (fun row => row.getD k (Expr.const 0))).map (Expr.eval ρ)).sum = 0) := by
  obtain ⟨hdup, hub, hstruct, hc⟩ := compile_eq_ok_iff.mp h
  have hnd : states.Nodup := states_nodup_of_dupName hdup
  subst hc
  intro k hk
  set ev := events.getD k defaultEvent with hev
  have hmem : ev ∈ events := by
    rw [hev, List.getD_eq_getElem _ _ hk]
    exact List.getElem_mem hk
  obtain ⟨hso, hsd, hsec⟩ := hpure ev hmem
  obtain ⟨o, ho⟩ := Option.isSome_iff_exists.mp hso
  obtain ⟨d, hd⟩ := Option.isSome_iff_exists.mp hsd
  have hne : o ≠ d := by
    intro hc2
    exact structuralError_none_not_self hstruct hmem
      ⟨hso, by rw [ho, hd, hc2]⟩
  have hos : o ∈ states := (findUnbound_none_refs hub hmem).1 o ho
  have hds : d ∈ states := (findUnbound_none_refs hub hmem).2 d hd
  have hcol : (states.map (fun s => events.map (stoichEntry s))).map
      (fun row => row.getD k (Expr.const 0)) =
      states.map (fun s => Expr.const (if o = s then -1 else if d = s then 1 else 0)) := by
    rw [List.map_map]
    refine List.map_congr_left ?_
    intro s _
    simp only [Function.comp]
    rw [getD_map_lt events (stoichEntry s) defaultEvent (Expr.const 0) hk, ← hev,
        stoichEntry_pure ho hd hsec hne s]
  rw [hcol]
  refine ⟨⟨?_, ?_⟩, ?_, ?_⟩
  · rw [(count_const_indicator states o d hne).1]
    exact List.count_eq_one_of_mem hnd hos
  · rw [(count_const_indicator states o d hne).2]
    exact List.count_eq_one_of_mem hnd hds
  · intro i hi
    rw [getD_map_lt states _ "" (Expr.const 0) hi]
    constructor
    · constructor
      · intro hc2
        simp only [Expr.const.injEq] at hc2
        by_cases h1 : o = states.getD i ""
        · rw [ho, h1]
        · by_cases h2 : d = states.getD i ""
          · rw [if_neg h1, if_pos h2] at hc2
            exact absurd hc2 (by norm_num)
          · rw [if_neg h1, if_neg h2] at hc2
            exact absurd hc2 (by norm_num)
      · intro hc2
        rw [ho] at hc2
        have h1 : o = states.getD i "" := by
          simpa using hc2
        rw [if_pos h1]
    · constructor
      · intro hc2
        simp only [Expr.const.injEq] at hc2
        by_cases h1 : o = states.getD i ""
        · rw [if_pos h1] at hc2
          exact absurd hc2 (by norm_num)
        · by_cases h2 : d = states.getD i ""
          · rw [hd, h2]
          · rw [if_neg h1, if_neg h2] at hc2
            exact absurd hc2 (by norm_num)
      · intro hc2
        rw [hd] at hc2
        have h2 : d = states.getD i "" := by
          simpa using hc2
        have h1 : ¬ o = states.getD i "" := fun hc3 => hne (hc3.trans h2.symm)
        rw [if_neg h1, if_pos h2]
  · intro ρ
    have hmap : (states.map (fun s =>
        Expr.const (if o = s then -1 else if d = s then 1 else 0))).map (Expr.eval ρ) =
        states.map (fun s => (if o = s then (-1 : ℚ) else if d = s then 1 else 0)) := by
      rw [List.map_map]
      refine List.map_congr_left ?_
      intro s _
      simp [Expr.eval]
    rw [hmap, sum_signed_indicator states o d hne,
        List.count_eq_one_of_mem hnd hos, List.count_eq_one_of_mem hnd hds]
    norm_num

theorem C6_pure_transition_columns_witness :
    ((sirCompiled.D.map (fun row => row.getD 0 (Expr.const 0))).count
        (Expr.const (-1)) = 1 ∧
     (sirCompiled.D.map (fun row => row.getD 0 (Expr.const 0))).count
        (Expr.const 1) = 1) ∧
    (∀ i, i < sirStates.length →
      (((sirCompiled.D.map (fun row => row.getD 0 (Expr.const 0))).getD i
          (Expr.const 0) = Expr.const (-1)) ↔
        (sirEvents.getD 0 defaultEvent).origin = some (sirStates.getD i "")) ∧
      (((sirCompiled.D.map (fun row => row.getD 0 (Expr.const 0))).getD i
          (Expr.const 0) = Expr.const 1) ↔
        (sirEvents.getD 0 defaultEvent).destination = some (sirStates.getD i ""))) ∧
    (∀ ρ : String → ℚ,
      ((sirCompiled.D.map (fun row => row.getD 0 (Expr.const 0))).map
        (Expr.eval ρ)).sum = 0) :=
  C6_pure_transition_columns sirStates sirParams sirEvents sirCompiled rfl (by decide)
    0 (by decide)

theorem orElse_eq_some {α : Type} {a b : Option α} {w : α} :
    (a <|> b) = some w ↔ a = some w ∨ (a = none ∧ b = some w) := by
  cases a <;> simp

theorem exists_of_findSome?_some {α β : Type} {f : α → Option β} {l : List α} {b : β}
    (h : l.findSome? f = some b) : ∃ a ∈ l, f a = some b := by
  induction l with
  | nil => simp [List.findSome?] at h
  | cons x xs ih =>
      rw [List.findSome?_cons] at h
      cases hx : f x with
      | some y =>
          rw [hx] at h
          exact ⟨x, List.mem_cons_self _ _, hx.trans h⟩
      | none =>
          rw [hx] at h
          obtain ⟨a, ha, hfa⟩ := ih h
          exact ⟨a, List.mem_cons_of_mem _ ha, hfa⟩

theorem unboundVar_eq_some {decls : List String} {e : Expr} {w : String}
    (h : unboundVar decls e = some w) : w ∈ e.vars ∧ w ∉ decls := by
  unfold unboundVar at h
  have hmem : w ∈ e.vars.filter (fun v => ¬ decls.contains v) := by
    cases hf : e.vars.filter (fun v => ¬ decls.contains v) with
    | nil => rw [hf] at h; cases h
    | cons y ys =>
        rw [hf] at h
        have hyw : y = w := by simpa using h
        exact hyw ▸ List.mem_cons_self y ys
  have := List.mem_filter.mp hmem
  refine ⟨this.1, ?_⟩
  have hb := this.2
  simp only [decide_not, Bool.not_eq_true', decide_eq_false_iff_not] at hb
  exact fun hc => hb (List.elem_iff.mpr hc)

/-- The per-event body of the structural validation. -/
theorem structuralError_missingFlow {events : List Event}
    (h3 : ∀ ev ∈ events, ¬(ev.origin.isSome ∧ ev.origin = ev.destination) ∧
      ¬(ev.secondary_effects.any
          (fun p => some p.1 = ev.origin ∨ some p.1 = ev.destination) = true))
    (h4 : ∃ ev ∈ events, ev.origin = none ∧ ev.destination = none) :
    structuralError events = some .missingFlow := by
  induction events with
  | nil => simp at h4
  | cons ev evs ih =>
      unfold structuralError
      rw [List.findSome?_cons]
      by_cases hbn : ev.origin.isNone = true ∧ ev.destination.isNone = true
      · rw [if_pos hbn]
      · have hbody : (if ev.origin.isNone ∧ ev.destination.isNone then
            some CompileError.missingFlow
          else if ev.origin.isSome ∧ ev.origin = ev.destination then
            some CompileError.selfTransition
          else if ev.secondary_effects.any
              (fun p => some p.1 = ev.origin ∨ some p.1 = ev.destination) then
            some CompileError.effectCollision
          else none) = none := by
          rw [if_neg hbn, if_neg (h3 ev (List.mem_cons_self _ _)).1,
              if_neg (h3 ev (List.mem_cons_self _ _)).2]
        rw [hbody]
        have h4' : ∃ e ∈ evs, e.origin = none ∧ e.destination = none := by
          obtain ⟨e, he, h1, h2⟩ := h4
          rcases List.mem_cons.mp he with hh | hh
          · exfalso
            subst hh
            exact hbn ⟨by simp [h1], by simp [h2]⟩
          · exact ⟨e, hh, h1, h2⟩
        exact ih (fun e he => h3 e (List.mem_cons_of_mem _ he)) h4'

/-- C8: compiling an event list containing an event with neither origin nor
destination fails with the missing-flow error (when the inputs pass every
other validation), and the failure is atomic - no call on such an event
list ever returns a compiled artifact, partial or otherwise. -/
theorem C8_missing_flow (states params : List String) (events : List Event)
    (h1 : dupName ("t" :: states ++ params) = none)
    (h2 : findUnbound states params events = none)
    (h3 : ∀ ev ∈ events, ¬(ev.origin.isSome ∧ ev.origin = ev.destination) ∧
      ¬(ev.secondary_effects.any
          (fun p => some p.1 = ev.origin ∨ some p.1 = ev.destination) = true))
    (h4 : ∃ ev ∈ events, ev.origin = none ∧ ev.destination = none) :
    compile states params events = .error .missingFlow ∧
    (∀ (sts prms : List String) (evs : List Event),
      (∃ ev ∈ evs, ev.origin = none ∧ ev.destination = none) →
      ∀ c, compile sts prms evs ≠ .ok c) := by
  constructor
  · unfold compile
    rw [h1, h2, structuralError_missingFlow h3 h4]
  · intro sts prms evs hex c hok
    obtain ⟨_, _, hstruct, _⟩ := compile_eq_ok_iff.mp hok
    obtain ⟨ev, hev, hor, hde⟩ := hex
    have := List.findSome?_eq_none_iff.mp hstruct ev hev
    rw [if_pos ⟨by simp [hor], by simp [hde]⟩] at this
    cases this

/-- An event list exhibiting a missing flow: one event with neither origin
nor destination. -/
def missingFlowEvents : List Event := [⟨none, none, .var "mu", []⟩]

theorem C8_missing_flow_witness :
    compile ["S"] ["mu"] missingFlowEvents = .error .missingFlow ∧
    (∀ (sts prms : List String) (evs : List Event),
      (∃ ev ∈ evs, ev.origin = none ∧ ev.destination = none) →
      ∀ c, compile sts prms evs ≠ .ok c) :=
  C8_missing_flow ["S"] ["mu"] missingFlowEvents rfl rfl (by decide) (by decide)

/-- An unbound identifier among the expressions of an event list surfaces
as the unbound-symbol result of the reference validation, provided all
origin, destination and secondary state names are declared. -/
theorem findUnbound_eq_some_unbound {states params : List String} {events : List Event}
    (hrefs : ∀ ev ∈ events, (∀ o, ev.origin = some o → o ∈ states) ∧
      (∀ d, ev.destination = some d → d ∈ states) ∧
      (∀ p ∈ ev.secondary_effects, p.1 ∈ states))
    (hex : ∃ ev ∈ events, (∃ v ∈ ev.rate.vars, v ∉ declared states params) ∨
      ∃ p ∈ ev.secondary_effects, ∃ v ∈ p.2.vars, v ∉ declared states params) :
    ∃ w, findUnbound states params events = some w ∧ w ∉ declared states params ∧
      ∃ ev ∈ events, w ∈ ev.rate.vars ∨
        ∃ p ∈ ev.secondary_effects, w ∈ p.2.vars := by
  induction events with
  | nil => simp at hex
  | cons ev evs ih =>
      have hAnone : (match ev.origin with
          | some o => if states.contains o then none else some o
          | none => none) = none := by
        cases horig : ev.origin with
        | none => rfl
        | some o =>
            simp only
            rw [if_pos (List.elem_iff.mpr ((hrefs ev (List.mem_cons_self _ _)).1 o horig))]
      have hBnone : (match ev.destination with
          | some d => if states.contains d then none else some d
          | none => none) = none := by
        cases hdest : ev.destination with
        | none => rfl
        | some d =>
            simp only
            rw [if_pos (List.elem_iff.mpr
              ((hrefs ev (List.mem_cons_self _ _)).2.1 d hdest))]
      unfold findUnbound
      rw [List.findSome?_cons, hAnone, hBnone]
      simp only [Option.none_orElse]
      cases hrate : unboundVar (declared states params) ev.rate with
      | some w =>
          have hw := unboundVar_eq_some hrate
          exact ⟨w, by simp, hw.2, ev, List.mem_cons_self _ _, Or.inl hw.1⟩
      | none =>
          simp only [Option.none_orElse]
          cases hsec : ev.secondary_effects.findSome? (fun p =>
              (if states.contains p.1 then none else some p.1) <|>
              unboundVar (declared states params) p.2) with
          | some w =>
              obtain ⟨p, hp, hpw⟩ := exists_of_findSome?_some hsec
              rw [orElse_eq_some] at hpw
              have hps : states.contains p.1 = true :=
                List.elem_iff.mpr ((hrefs ev (List.mem_cons_self _ _)).2.2 p hp)
              rcases hpw with hc | ⟨_, hc⟩
              · rw [if_pos hps] at hc
                cases hc
              · have hw := unboundVar_eq_some hc
                exact ⟨w, by simp, hw.2, ev, List.mem_cons_self _ _,
                  Or.inr ⟨p, hp, hw.1⟩⟩
          | none =>
              have hex' : ∃ e ∈ evs, (∃ v ∈ e.rate.vars, v ∉ declared states params) ∨
                  ∃ p ∈ e.secondary_effects, ∃ v ∈ p.2.vars,
                    v ∉ declared states params := by
                obtain ⟨e, he, hcase⟩ := hex
                rcases List.mem_cons.mp he with hh | hh
                · exfalso
                  subst hh
                  rcases hcase with ⟨v, hv, hnd⟩ | ⟨p, hp, v, hv, hnd⟩
                  · exact hnd (unboundVar_eq_none_iff.mp hrate v hv)
                  · have := List.findSome?_eq_none_iff.mp hsec p hp
                    rw [orElse_eq_none] at this
                    exact hnd (unboundVar_eq_none_iff.mp this.2 v hv)
                · exact ⟨e, hh, hcase⟩
              obtain ⟨w, hf, hnd, e, he, hcase⟩ :=
                ih (fun e he => hrefs e (List.mem_cons_of_mem _ he)) hex'
              refine ⟨w, ?_, hnd, e, List.mem_cons_of_mem _ he, hcase⟩
              unfold findUnbound at hf
              simpa using hf

/-- An unbound identifier among a list of ODE right-hand sides surfaces as
the unbound-symbol result of the reference validation. -/
theorem findSome?_unboundVar_some {decls : List String} {odes : List Expr}
    (hex : ∃ e ∈ odes, ∃ v ∈ e.vars, v ∉ decls) :
    ∃ w, odes.findSome? (unboundVar decls) = some w ∧ w ∉ decls ∧
      ∃ e ∈ odes, w ∈ e.vars := by
  induction odes with
  | nil => simp at hex
  | cons e es ih =>
      rw [List.findSome?_cons]
      cases hb : unboundVar decls e with
      | some w =>
          have hw := unboundVar_eq_some hb
          exact ⟨w, rfl, hw.2, e, List.mem_cons_self _ _, hw.1⟩
      | none =>
          have hbound := unboundVar_eq_none_iff.mp hb
          have hex' : ∃ e' ∈ es, ∃ v ∈ e'.vars, v ∉ decls := by
            obtain ⟨e', he', v, hv, hnd⟩ := hex
            rcases List.mem_cons.mp he' with hh | hh
            · exact absurd (hbound v (hh ▸ hv)) hnd
            · exact ⟨e', hh, v, hv, hnd⟩
          obtain ⟨w, hf, hnd, e', he', hv⟩ := ih hex'
          exact ⟨w, hf, hnd, e', List.mem_cons_of_mem _ he', hv⟩

/-- C9: a rate expression or an ODE right-hand side referencing an
identifier that is neither a declared state, a declared parameter nor the
time symbol makes the call fail with an unbound-symbol error carrying an
offending identifier, and no compiled artifact is returned. -/
theorem C9_unbound_symbol (states params : List String) (events : List Event)
    (odes : List Expr) (h1 : dupName ("t" :: states ++ params) = none)
    (hrefs : ∀ ev ∈ events, (∀ o, ev.origin = some o → o ∈ states) ∧
      (∀ d, ev.destination = some d → d ∈ states) ∧
      (∀ p ∈ ev.secondary_effects, p.1 ∈ states)) :
    ((∃ ev ∈ events, (∃ v ∈ ev.rate.vars, v ∉ declared states params) ∨
        ∃ p ∈ ev.secondary_effects, ∃ v ∈ p.2.vars, v ∉ declared states params) →
      ∃ w, compile states params events = .error (.unboundSymbol w) ∧
        w ∉ declared states params ∧
        (∃ ev ∈ events, w ∈ ev.rate.vars ∨
          ∃ p ∈ ev.secondary_effects, w ∈ p.2.vars)) ∧
    ((∃ e ∈ odes, ∃ v ∈ e.vars, v ∉ declared states params) →
      ∃ w, unroll states params odes = .error (.unboundSymbol w) ∧
        w ∉ declared states params ∧ ∃ e ∈ odes, w ∈ e.vars) := by
  constructor
  · intro hex
    obtain ⟨w, hf, hnd, hocc⟩ := findUnbound_eq_some_unbound hrefs hex
    refine ⟨w, ?_, hnd, hocc⟩
    unfold compile
    rw [h1, hf]
  · intro hex
    obtain ⟨w, hf, hnd, hocc⟩ := findSome?_unboundVar_some hex
    refine ⟨w, ?_, hnd, hocc⟩
    unfold unroll
    rw [h1, hf]

/-- An event list whose rate references the undeclared identifier delta. -/
def unboundEvents : List Event :=
  [⟨some "S", some "I", .mul (.var "delta") (.var "S"), []⟩]

theorem C9_unbound_symbol_witness :
    ∃ w, compile sirStates sirParams unboundEvents = .error (.unboundSymbol w) ∧
      w ∉ declared sirStates sirParams ∧
      (∃ ev ∈ unboundEvents, w ∈ ev.rate.vars ∨
        ∃ p ∈ ev.secondary_effects, w ∈ p.2.vars) :=
  (C9_unbound_symbol sirStates sirParams unboundEvents [] rfl (by decide)).1 (by decide)

/-- Modelled from the spec: the central model class, holding the declared
states and parameters, the per-state ODE right-hand sides, and the event
list (empty when the model was defined through ODE equations alone). -/
structure SimulateOde where
  states : List String
  params : List String
  odes : List Expr
  events : List Event
  deriving DecidableEq, Repr

/-- Modelled from the spec: construction of a model from ODE equations
alone - no event information is available. -/
def SimulateOde.ofOde (states params : List String) (odes : List Expr) : SimulateOde :=
  ⟨states, params, odes, []⟩

/-- Modelled from the spec: the state-change matrix query - one row per
state, one column per event currently known to the model. -/
def SimulateOde.get_StateChangeMatrix (m : SimulateOde) : List (List Expr) :=
  m.states.map (fun s => m.events.map (stoichEntry s))

/-- Modelled from the spec: the event-rate-vector query. -/
def SimulateOde.get_EventRateVector (m : SimulateOde) : List Expr :=
  m.events.map (fun ev => ev.rate)

/-- Modelled from the spec: the unrolling query - infer an event list from
the stored ODE right-hand sides and return a new model carrying it. -/
def SimulateOde.get_unrolled_obj (m : SimulateOde) : Except CompileError SimulateOde :=
  (unroll m.states m.params m.odes).map (fun evs => ⟨m.states, m.params, m.odes, evs⟩)

/-- States of the SIR model with unbalanced births and deaths, from the
unrolling notebook. -/
def sirBDStates : List String := ["S", "I", "R"]

/-- Parameters of the SIR model with births and deaths. -/
def sirBDParams : List String := ["beta", "gamma", "B", "mu"]

/-- The substituted total population S + I + R. -/
def nTot : Expr := .add (.add (.var "S") (.var "I")) (.var "R")

/-- The standard-incidence infection rate beta*S*I/(S+I+R). -/
def rateInfBD : Expr := .div (.mul (.mul (.var "beta") (.var "S")) (.var "I")) nTot

/-- The three ODE right-hand sides of the SIR model with births and deaths,
as given to the model in the unrolling notebook. -/
def sirBDOdes : List Expr :=
  [.sub (.add (.neg rateInfBD) (.mul (.var "B") nTot)) (.mul (.var "mu") (.var "S")),
   .sub (.sub rateInfBD (.mul (.var "gamma") (.var "I"))) (.mul (.var "mu") (.var "I")),
   .sub (.mul (.var "gamma") (.var "I")) (.mul (.var "mu") (.var "R"))]

/-- The SIR birth-death model defined through ODE equations alone. -/
def sirBDModel : SimulateOde := SimulateOde.ofOde sirBDStates sirBDParams sirBDOdes

/-- The unrolled SIR birth-death model, extracted from the unroll output. -/
def sirBDUnrolled : SimulateOde :=
  (sirBDModel.get_unrolled_obj).toOption.getD ⟨[], [], [], []⟩

/-- C10: a model constructed from ODE equations alone answers the
state-change-matrix query without error, with one row per state and zero
columns; after get_unrolled_obj succeeds the same query returns one row per
state and one column per inferred event - concretely, the SIR birth-death
model of the unrolling notebook has a 3 x 0 matrix before unrolling and a
3 x 8 matrix after. -/
theorem C10_ode_only_matrix (states params : List String) (odes : List Expr) :
    (SimulateOde.ofOde states params odes).get_StateChangeMatrix =
      states.map (fun _ => ([] : List Expr)) ∧
    (SimulateOde.ofOde states params odes).get_StateChangeMatrix.length = states.length ∧
    (∀ m', (SimulateOde.ofOde states params odes).get_unrolled_obj = .ok m' →
      m'.get_StateChangeMatrix.length = states.length ∧
      ∀ row ∈ m'.get_StateChangeMatrix, row.length = m'.events.length) ∧
    (sirBDModel.get_unrolled_obj = .ok sirBDUnrolled ∧
     sirBDUnrolled.events.length = 8 ∧
     sirBDUnrolled.get_StateChangeMatrix.length = 3 ∧
     ∀ row ∈ sirBDUnrolled.get_StateChangeMatrix, row.length = 8) := by
  refine ⟨rfl, by simp [SimulateOde.ofOde, SimulateOde.get_StateChangeMatrix], ?_, ?_⟩
  · intro m' hm
    unfold SimulateOde.get_unrolled_obj at hm
    simp only [SimulateOde.ofOde] at hm
    cases hu : unroll states params odes with
    | error e =>
        rw [hu] at hm
        cases hm
    | ok evs =>
        rw [hu] at hm
        have hm' : m' = ⟨states, params, odes, evs⟩ := by
          simpa [Except.map] using hm.symm
        subst hm'
        constructor
        · simp [SimulateOde.get_StateChangeMatrix]
        · intro row hrow
          simp only [SimulateOde.get_StateChangeMatrix, List.mem_map] at hrow
          obtain ⟨s, _, hs⟩ := hrow
          rw [← hs]
          simp
  · exact ⟨rfl, rfl, rfl, by decide⟩

theorem C10_ode_only_matrix_witness :
    sirBDUnrolled.get_StateChangeMatrix.length = sirBDStates.length ∧
    ∀ row ∈ sirBDUnrolled.get_StateChangeMatrix, row.length = sirBDUnrolled.events.length :=
  (C10_ode_only_matrix sirBDStates sirBDParams sirBDOdes).2.2.1 sirBDUnrolled rfl

/-- States of the SLIAR epidemic model of the unrolling notebook. -/
def sliarStates : List String := ["S", "L", "I", "A", "R"]

/-- Parameters of the SLIAR epidemic model. -/
def sliarParams : List String := ["beta", "p", "kappa", "alpha", "f", "delta", "eta"]

/-- The five ODE right-hand sides of the SLIAR model, as given to the model
in the unrolling notebook. -/
def sliarOdes : List Expr :=
  [.neg (.mul (.mul (.var "beta") (.var "S"))
      (.add (.var "I") (.mul (.var "delta") (.var "A")))),
   .sub (.mul (.mul (.var "beta") (.var "S"))
      (.add (.var "I") (.mul (.var "delta") (.var "A"))))
     (.mul (.var "kappa") (.var "L")),
   .sub (.mul (.mul (.var "p") (.var "kappa")) (.var "L"))
     (.mul (.var "alpha") (.var "I")),
   .sub (.mul (.mul (.sub (.const 1) (.var "p")) (.var "kappa")) (.var "L"))
     (.mul (.var "eta") (.var "A")),
   .add (.mul (.mul (.var "f") (.var "alpha")) (.var "I"))
     (.mul (.var "eta") (.var "A"))]

/-- Rate of the recorded S to L transition: A*S*beta*delta + I*S*beta. -/
def sliarRateSL : Expr :=
  .add (.mul (.mul (.mul (.var "A") (.var "S")) (.var "beta")) (.var "delta"))
    (.mul (.mul (.var "I") (.var "S")) (.var "beta"))

/-- Rate of the recorded L to I transition: L*kappa*p. -/
def sliarRateLI : Expr := .mul (.mul (.var "L") (.var "kappa")) (.var "p")

/-- Rate of the recorded L to A transition: -L*kappa*p + L*kappa. -/
def sliarRateLA : Expr :=
  .add (.neg (.mul (.mul (.var "L") (.var "kappa")) (.var "p")))
    (.mul (.var "L") (.var "kappa"))

/-- Rate of the recorded A to R transition: A*eta. -/
def sliarRateAR : Expr := .mul (.var "A") (.var "eta")

/-- Rate of the recorded death event out of I: I*alpha. -/
def sliarRateDeathI : Expr := .mul (.var "I") (.var "alpha")

/-- Rate of the recorded birth event into R: I*alpha*f. -/
def sliarRateBirthR : Expr := .mul (.mul (.var "I") (.var "alpha")) (.var "f")

/-- The event list recorded in the unrolling notebook for the SLIAR model
(transcribed from the recorded transition graph): transitions S→L, L→I,
L→A and A→R, one death out of I at the full outflow rate I*alpha, and one
birth into R at the recovered fraction I*alpha*f. -/
def sliarUnrolledEvents : List Event :=
  [⟨some "S", some "L", sliarRateSL, []⟩,
   ⟨some "L", some "I", sliarRateLI, []⟩,
   ⟨some "L", some "A", sliarRateLA, []⟩,
   ⟨some "A", some "R", sliarRateAR, []⟩,
   ⟨some "I", none, sliarRateDeathI, []⟩,
   ⟨none, some "R", sliarRateBirthR, []⟩]

/-- The console messages recorded while unrolling the SLIAR model: three
generic update notices, no ambiguity warning. -/
def sliarUnrollMessages : List String :=
  ["Update: In the latest version, you should define births as having a destination state instead of an origin.",
   "Update: In the latest version, between state transitions should be passed to SimulateODE via the Event objects.",
   "Update: In the latest version, birth/death transitions should be passed to SimulateODE via the Event objects."]

/-- The residual term (1-f)*alpha*I of the I equation named by the claim. -/
def sliarResidual : Expr :=
  .mul (.mul (.sub (.const 1) (.var "f")) (.var "alpha")) (.var "I")

/-- C2 counterexample: the recorded SLIAR unroll output contains no death
event out of I whose rate is the residual (1-f)*alpha*I; the recorded
death event carries the full outflow I*alpha instead. -/
theorem C2_sliar_residual_counterexample :
    ¬ ∃ ev ∈ sliarUnrolledEvents, ev.origin = some "I" ∧ ev.destination = none ∧
        ev.rate.equiv sliarResidual := by
  rintro ⟨ev, hev, ho, hd, heq⟩
  fin_cases hev
  · simp at ho
  · simp at ho
  · simp at ho
  · simp at ho
  · have h1 := heq (fun _ => 1)
    simp [Expr.eval, sliarResidual, sliarRateDeathI] at h1
  · simp at ho

/-- C2 amended: unrolling the SLIAR system produces the transitions S→L,
L→I, L→A and A→R; it classifies the full outflow alpha*I of the I equation
as a Death event with origin I and no destination, together with a Birth
event into R carrying the recovered fraction f*alpha*I (instead of a death
of only the residual (1-f)*alpha*I); the three recorded console messages
are generic update notices, not ambiguity warnings; and recompiling the
recorded event list reproduces the original ODE system algebraically. -/
theorem C2_sliar_unroll_amended :
    (∃ ev ∈ sliarUnrolledEvents, ev.origin = some "S" ∧ ev.destination = some "L" ∧
      ev.rate.equiv (.mul (.mul (.var "beta") (.var "S"))
        (.add (.var "I") (.mul (.var "delta") (.var "A"))))) ∧
    (∃ ev ∈ sliarUnrolledEvents, ev.origin = some "L" ∧ ev.destination = some "I" ∧
      ev.rate.equiv (.mul (.mul (.var "p") (.var "kappa")) (.var "L"))) ∧
    (∃ ev ∈ sliarUnrolledEvents, ev.origin = some "L" ∧ ev.destination = some "A" ∧
      ev.rate.equiv (.mul (.mul (.sub (.const 1) (.var "p")) (.var "kappa")) (.var "L"))) ∧
    (∃ ev ∈ sliarUnrolledEvents, ev.origin = some "A" ∧ ev.destination = some "R" ∧
      ev.rate.equiv (.mul (.var "eta") (.var "A"))) ∧
    (∃ ev ∈ sliarUnrolledEvents, ev.origin = some "I" ∧ ev.destination = none ∧
      ev.rate.equiv (.mul (.var "alpha") (.var "I"))) ∧
    (∃ ev ∈ sliarUnrolledEvents, ev.origin = none ∧ ev.destination = some "R" ∧
      ev.rate.equiv (.mul (.mul (.var "f") (.var "alpha")) (.var "I"))) ∧
    (sliarUnrollMessages.length = 3 ∧
      ∀ msg ∈ sliarUnrollMessages, "Update:".data.isPrefixOf msg.data = true) ∧
    (∃ c, compile sliarStates sliarParams sliarUnrolledEvents = .ok c ∧
      ∀ i, ((c.f).getD i (.const 0)).equiv (sliarOdes.getD i (.const 0))) := by
  refine ⟨⟨⟨some "S", some "L", sliarRateSL, []⟩, by simp [sliarUnrolledEvents], rfl, rfl, ?_⟩,
    ⟨⟨some "L", some "I", sliarRateLI, []⟩, by simp [sliarUnrolledEvents], rfl, rfl, ?_⟩,
    ⟨⟨some "L", some "A", sliarRateLA, []⟩, by simp [sliarUnrolledEvents], rfl, rfl, ?_⟩,
    ⟨⟨some "A", some "R", sliarRateAR, []⟩, by simp [sliarUnrolledEvents], rfl, rfl, ?_⟩,
    ⟨⟨some "I", none, sliarRateDeathI, []⟩, by simp [sliarUnrolledEvents], rfl, rfl, ?_⟩,
    ⟨⟨none, some "R", sliarRateBirthR, []⟩, by simp [sliarUnrolledEvents], rfl, rfl, ?_⟩,
    ⟨rfl, by decide⟩, ?_⟩
  · intro ρ
    simp [Expr.eval, sliarRateSL]
    ring
  · intro ρ
    simp [Expr.eval, sliarRateLI]
    ring
  · intro ρ
    simp [Expr.eval, sliarRateLA]
    ring
  · intro ρ
    simp [Expr.eval, sliarRateAR]
    ring
  · intro ρ
    simp [Expr.eval, sliarRateDeathI]
    ring
  · intro ρ
    simp [Expr.eval, sliarRateBirthR]
    ring
  · refine ⟨⟨[[Expr.const (-1), Expr.const 0, Expr.const 0,
               Expr.const 0, Expr.const 0, Expr.const 0],
              [Expr.const 1, Expr.const (-1), Expr.const (-1),
               Expr.const 0, Expr.const 0, Expr.const 0],
              [Expr.const 0, Expr.const 1, Expr.const 0,
               Expr.const 0, Expr.const (-1), Expr.const 0],
              [Expr.const 0, Expr.const 0, Expr.const 1,
               Expr.const (-1), Expr.const 0, Expr.const 0],
              [Expr.const 0, Expr.const 0, Expr.const 0,
               Expr.const 1, Expr.const 0, Expr.const 1]],
             [sliarRateSL, sliarRateLI, sliarRateLA, sliarRateAR,
              sliarRateDeathI, sliarRateBirthR],
             [.add (.mul (.const (-1)) sliarRateSL) (.add (.mul (.const 0) sliarRateLI)
                (.add (.mul (.const 0) sliarRateLA) (.add (.mul (.const 0) sliarRateAR)
                (.add (.mul (.const 0) sliarRateDeathI)
                (.add (.mul (.const 0) sliarRateBirthR) (.const 0)))))),
              .add (.mul (.const 1) sliarRateSL) (.add (.mul (.const (-1)) sliarRateLI)
                (.add (.mul (.const (-1)) sliarRateLA) (.add (.mul (.const 0) sliarRateAR)
                (.add (.mul (.const 0) sliarRateDeathI)
                (.add (.mul (.const 0) sliarRateBirthR) (.const 0)))))),
              .add (.mul (.const 0) sliarRateSL) (.add (.mul (.const 1) sliarRateLI)
                (.add (.mul (.const 0) sliarRateLA) (.add (.mul (.const 0) sliarRateAR)
                (.add (.mul (.const (-1)) sliarRateDeathI)
                (.add (.mul (.const 0) sliarRateBirthR) (.const 0)))))),
              .add (.mul (.const 0) sliarRateSL) (.add (.mul (.const 0) sliarRateLI)
                (.add (.mul (.const 1) sliarRateLA) (.add (.mul (.const (-1)) sliarRateAR)
                (.add (.mul (.const 0) sliarRateDeathI)
                (.add (.mul (.const 0) sliarRateBirthR) (.const 0)))))),
              .add (.mul (.const 0) sliarRateSL) (.add (.mul (.const 0) sliarRateLI)
                (.add (.mul (.const 0) sliarRateLA) (.add (.mul (.const 1) sliarRateAR)
                (.add (.mul (.const 0) sliarRateDeathI)
                (.add (.mul (.const 1) sliarRateBirthR) (.const 0))))))]⟩,
      rfl, ?_⟩
    intro i
    match i with
    | 0 =>
        intro ρ
        simp [List.getD, sliarOdes, sliarRateSL, Expr.eval]
        ring
    | 1 =>
        intro ρ
        simp [List.getD, sliarOdes, sliarRateSL, sliarRateLI, sliarRateLA, Expr.eval]
        ring
    | 2 =>
        intro ρ
        simp [List.getD, sliarOdes, sliarRateLI, sliarRateDeathI, Expr.eval]
        ring
    | 3 =>
        intro ρ
        simp [List.getD, sliarOdes, sliarRateLA, sliarRateAR, Expr.eval]
        ring
    | 4 =>
        intro ρ
        simp [List.getD, sliarOdes, sliarRateAR, sliarRateBirthR, Expr.eval]
        ring
    | (n + 5) =>
        intro ρ
        simp [List.getD, sliarOdes, Expr.eval]

/-- A symbolic-engine symbol: a printable name together with the identity
of the minting site.  Two symbols with the same name but different mints
print alike yet fail to unify, which is the failure mode under study. -/
structure SymId where
  name : String
  uid : Nat
  deriving DecidableEq, Repr

/-- Expression tree of the symbolic engine, over identity-carrying
symbols, with the operators appearing in the time-dependent rate of the
bug-hunt notebook. -/
inductive SymExpr where
  | const : ℚ → SymExpr
  | var : SymId → SymExpr
  | add : SymExpr → SymExpr → SymExpr
  | mul : SymExpr → SymExpr → SymExpr
  | div : SymExpr → SymExpr → SymExpr
  | cos : SymExpr → SymExpr
  | sin : SymExpr → SymExpr
  deriving DecidableEq, Repr

/-- The free symbols of a symbolic expression. -/
def SymExpr.freeSyms : SymExpr → List SymId
  | .const _ => []
  | .var s => [s]
  | .add a b => a.freeSyms ++ b.freeSyms
  | .mul a b => a.freeSyms ++ b.freeSyms
  | .div a b => a.freeSyms ++ b.freeSyms
  | .cos u => u.freeSyms
  | .sin u => u.freeSyms

/-- Addition with the automatic zero collapse of the symbolic engine. -/
def addS (a b : SymExpr) : SymExpr :=
  if a = .const 0 then b else if b = .const 0 then a else .add a b

/-- Multiplication with the automatic zero and unit collapse of the
symbolic engine. -/
def mulS (a b : SymExpr) : SymExpr :=
  if a = .const 0 ∨ b = .const 0 then .const 0
  else if a = .const 1 then b else if b = .const 1 then a else .mul a b

/-- Subtraction via the collapsing constructors. -/
def subS (a b : SymExpr) : SymExpr := addS a (mulS (.const (-1)) b)

/-- Division with the zero-numerator collapse. -/
def divS (a b : SymExpr) : SymExpr := if a = .const 0 then .const 0 else .div a b

/-- Symbolic differentiation with respect to a symbol, matching on symbol
identity (not on the printable name), as the symbolic engine does. -/
def diffS : SymExpr → SymId → SymExpr
  | .const _, _ => .const 0
  | .var u, s => if u = s then .const 1 else .const 0
  | .add a b, s => addS (diffS a s) (diffS b s)
  | .mul a b, s => addS (mulS (diffS a s) b) (mulS a (diffS b s))
  | .div a b, s => divS (subS (mulS (diffS a s) b) (mulS a (diffS b s))) (mulS b b)
  | .cos u, s => mulS (mulS (.const (-1)) (.sin u)) (diffS u s)
  | .sin u, s => mulS (.cos u) (diffS u s)

/-- Substitution of one symbol by another, by identity. -/
def subsSym : SymExpr → SymId → SymId → SymExpr
  | .const c, _, _ => .const c
  | .var v, u, w => if v = u then .var w else .var v
  | .add a b, u, w => .add (subsSym a u w) (subsSym b u w)
  | .mul a b, u, w => .mul (subsSym a u w) (subsSym b u w)
  | .div a b, u, w => .div (subsSym a u w) (subsSym b u w)
  | .cos e, u, w => .cos (subsSym e u w)
  | .sin e, u, w => .sin (subsSym e u w)

/-- Modelled from the spec: the single time symbol minted when the model
is initialised (base_ode_model is not among the sources; identities are
transcribed from the recorded outputs of the sympy bug-hunt notebook). -/
def modelT : SymId := ⟨"t", 0⟩

/-- The state and parameter symbols minted by the model initialiser. -/
def sSym : SymId := ⟨"S", 1⟩

/-- The infected-state symbol of the bug-hunt model. -/
def iSym : SymId := ⟨"I", 2⟩

/-- The infectivity parameter symbol of the bug-hunt model. -/
def betaSym : SymId := ⟨"beta", 4⟩

/-- The recovery parameter symbol of the bug-hunt model. -/
def gammaSym : SymId := ⟨"gamma", 5⟩

/-- The population parameter symbol of the bug-hunt model. -/
def nSym : SymId := ⟨"N", 6⟩

/-- Modelled from the spec: the parameter dictionary of the model, whose
time entry is the model time symbol (the notebook records
`model._paramDict['t'] == model._t` as True). -/
def modelParamDict : List (String × SymId) :=
  [("beta", betaSym), ("gamma", gammaSym), ("N", nSym), ("t", modelT)]

/-- The fresh time symbol minted again inside the equation-checking
routine while parsing the transition rate, distinct from the model time
symbol although it prints as t. -/
def eqnT : SymId := ⟨"t", 7⟩

/-- The parsed transition rate I*S*beta*(0.99*cos(0.628*t) + 1)/N as the
notebook records it, with its time symbol being the fresh mint eqnT rather
than the model time symbol.  The decimal coefficients 0.99 and 0.628 are
written as the exact quotients 99/100 and 157/250. -/
def bugEqn : SymExpr :=
  .div (.mul (.mul (.mul (.var iSym) (.var sSym)) (.var betaSym))
      (.add (.mul (.div (.const 99) (.const 100))
          (.cos (.mul (.div (.const 157) (.const 250)) (.var eqnT))))
        (.const 1)))
    (.var nSym)

/-- C4: the code mints a second time symbol during equation parsing, so the
time handle stored in the model symbol table is not the symbol occurring in
the parsed rate: the recorded lookups show the stored handle absent from
the free symbols of the equation and the derivative with respect to it
silently zero, although the equation genuinely depends on its own (fresh)
time symbol; substituting the model handle for the fresh symbol restores a
non-zero derivative.  This contradicts the claimed single-mint invariant
and evaluates the code behaviour at the failing input recorded in the
bug-hunt notebook. -/
theorem C4_time_symbol_remint :
    modelParamDict.lookup "t" = some modelT ∧
    modelT ∉ bugEqn.freeSyms ∧
    diffS bugEqn modelT = .const 0 ∧
    (eqnT ∈ bugEqn.freeSyms ∧ eqnT.name = "t" ∧ eqnT ≠ modelT) ∧
    diffS bugEqn eqnT ≠ .const 0 ∧
    (modelT ∈ (subsSym bugEqn eqnT modelT).freeSyms ∧
     diffS (subsSym bugEqn eqnT modelT) modelT ≠ .const 0) := by
  decide
